import Mathlib

/-! TSAD-Evaluator: range-based precision, recall and F-score.

A shallow embedding of `src/evaluator.h`, `src/evaluator.cpp` and the interval extraction of
`src/main.cpp`.

Modelling conventions.
* In the namespace `anomaly.evaluator`, `timestamp` (the C++ `int`) is embedded as the
  unbounded `Int` and `double` values as exact rationals `ℚ`.  The one unguarded division of
  the program, in `compute_fscore`, returns `none` when its denominator is zero (the C++
  result is then not a finite number); every other division of the program is guarded by
  the program itself.  Statements proved there are statements about the code with
  arithmetic taken as exact and `int` values that do not overflow.
* In the namespace `anomaly.machine.evaluator` the same code runs on machine numbers:
  IEEE-754 doubles (`dbl`) and 32-bit wrapping integers.  It is used to evaluate the code at
  concrete inputs where rounding, overflow or underflow change the result.
* The three C++ enumerations are plain integers in C++; they are embedded as `Nat` together
  with their named enumerators, so that the `default:` branches of the `switch` statements
  stay reachable.
* Reference parameters (`int& overlap_count`) become explicit state passing.
* A member function that may `throw` returns the object state after the call together with
  the thrown message, if any.
* `for` loops become folds over the iterated container or index range.
-/

namespace anomaly

/-! ## Types of `evaluator.h` -/

/-- C++ `typedef int timestamp`. -/
abbrev timestamp := Int

/-- C++ `typedef std::pair<timestamp, timestamp> time_range` (`first`, `second`). -/
abbrev time_range := Int × Int

/-- C++ `typedef std::vector<time_range> time_intervals`. -/
abbrev time_intervals := List time_range

/-- C++ `enum overlap_cardinality {e_one, e_reciprocal, e_udf_gamma}`. -/
abbrev overlap_cardinality := Nat

abbrev e_one : overlap_cardinality := 0
abbrev e_reciprocal : overlap_cardinality := 1
abbrev e_udf_gamma : overlap_cardinality := 2

/-- C++ `enum positional_bias {e_flat, e_front, e_middle, e_back, e_udf_delta}`. -/
abbrev positional_bias := Nat

abbrev e_flat : positional_bias := 0
abbrev e_front : positional_bias := 1
abbrev e_middle : positional_bias := 2
abbrev e_back : positional_bias := 3
abbrev e_udf_delta : positional_bias := 4

/-- C++ `enum e_metric {e_precision, e_recall, e_fscore}`. -/
abbrev e_metric := Nat

abbrev e_precision : e_metric := 0
abbrev e_recall : e_metric := 1
abbrev e_fscore : e_metric := 2

/-- The data members of `class evaluator`.  `fscore_` is `none` when the stored value is the
result of a division by zero. -/
structure evaluator where
  beta_ : ℚ
  alpha_p_ : ℚ
  alpha_r_ : ℚ
  gamma_p_ : overlap_cardinality
  gamma_r_ : overlap_cardinality
  delta_p_ : positional_bias
  delta_r_ : positional_bias
  precision_ : ℚ
  recall_ : ℚ
  fscore_ : Option ℚ
  real_anomalies_ : time_intervals
  predicted_anomalies_ : time_intervals

namespace evaluator

/-! ## Constructors -/

/-- The constructor `evaluator()`. -/
def ctor_default : evaluator :=
  ⟨1, 0, 0, e_one, e_one, e_flat, e_flat, 0, 0, some 0, [], []⟩

/-- The constructor `evaluator(real, predicted)`. -/
def ctor_sets (real predicted : time_intervals) : evaluator :=
  ⟨1, 0, 0, e_one, e_one, e_flat, e_flat, 0, 0, some 0, real, predicted⟩

/-- The constructor `evaluator(real, predicted, beta, alpha_r, gamma, delta_p, delta_r)`. -/
def ctor_config (real predicted : time_intervals) (beta alpha_r : ℚ)
    (gamma : overlap_cardinality) (delta_p delta_r : positional_bias) : evaluator :=
  ⟨beta, 0, alpha_r, gamma, gamma, delta_p, delta_r, 0, 0, some 0, real, predicted⟩

/-! ## The weighting functions of `evaluator.cpp` -/

/-- The shipped body of `udf_gamma_def`: `return_val = 1.0`; its `assert` holds. -/
def udf_gamma_def (_e : evaluator) (_overlap_count : Int) (_m : e_metric) : ℚ :=
  1

/-- The shipped body of `udf_delta_def`: both branches on `m` are empty, `return_val = 1.0`;
its `assert` holds. -/
def udf_delta_def (_e : evaluator) (_t _anomaly_length : timestamp) (m : e_metric) : ℚ :=
  if m = e_precision then 1
  else if m = e_recall then 1
  else 1

/-- The `switch (gamma)` of `gamma_select`. -/
def gamma_select (e : evaluator) (gamma : overlap_cardinality) (overlap : Int)
    (m : e_metric) : ℚ :=
  if gamma = e_one then 1
  else if gamma = e_reciprocal then (if overlap > 1 then 1 / (overlap : ℚ) else 1)
  else if gamma = e_udf_gamma then
    (if overlap > 1 then 1 / e.udf_gamma_def overlap m else 1)
  else 1

/-- The `switch (m)` of `gamma_function`. -/
def gamma_function (e : evaluator) (overlap : Int) (m : e_metric) : ℚ :=
  if m = e_precision then e.gamma_select e.gamma_p_ overlap m
  else if m = e_recall then e.gamma_select e.gamma_r_ overlap m
  else 1

/-- The `switch (delta)` of `delta_select`; `anomaly_length/2` is the C++ integer division,
which truncates toward zero (`Int.tdiv`). -/
def delta_select (e : evaluator) (delta : positional_bias) (t anomaly_length : timestamp)
    (m : e_metric) : ℚ :=
  if delta = e_flat then 1
  else if delta = e_front then ((anomaly_length - t + 1 : Int) : ℚ)
  else if delta = e_middle then
    (if t ≤ Int.tdiv anomaly_length 2 then (t : ℚ) else ((anomaly_length - t + 1 : Int) : ℚ))
  else if delta = e_back then (t : ℚ)
  else if delta = e_udf_delta then e.udf_delta_def t anomaly_length m
  else 1

/-- The `switch (m)` of `delta_function`. -/
def delta_function (e : evaluator) (t anomaly_length : timestamp) (m : e_metric) : ℚ :=
  if m = e_precision then e.delta_select e.delta_p_ t anomaly_length m
  else if m = e_recall then e.delta_select e.delta_r_ t anomaly_length m
  else 1

/-! ## Omega -/

/-- One iteration of the `for` loop of `omega_function`, for the loop index `i = k + 1`.
The state is `(my_positional_bias, max_positional_bias)`. -/
def omega_step (e : evaluator) (range overlap : time_range) (m : e_metric)
    (anomaly_length : Int) (st : ℚ × ℚ) (k : Nat) : ℚ × ℚ :=
  let i : Int := (k : Int) + 1
  let temp_bias := e.delta_function i anomaly_length m
  let max_positional_bias := st.2 + temp_bias
  let j : Int := range.1 + i - 1
  if j ≥ overlap.1 ∧ j ≤ overlap.2 then (st.1 + temp_bias, max_positional_bias)
  else (st.1, max_positional_bias)

/-- The loop `for (i = 1; i <= anomaly_length; ++i)` of `omega_function`: it runs
`anomaly_length` times when that is positive and not at all otherwise. -/
def omega_loop (e : evaluator) (range overlap : time_range) (m : e_metric) : ℚ × ℚ :=
  let anomaly_length : Int := range.2 - range.1 + 1
  (List.range anomaly_length.toNat).foldl (e.omega_step range overlap m anomaly_length) (0, 0)

/-- C++ `evaluator::omega_function`. -/
def omega_function (e : evaluator) (range overlap : time_range) (m : e_metric) : ℚ :=
  let st := e.omega_loop range overlap m
  if st.2 > 0 then st.1 / st.2 else 0

/-- C++ `evaluator::compute_omega_reward`; the result is the returned reward together with
the new value of the reference parameter `overlap_count`. -/
def compute_omega_reward (e : evaluator) (r1 r2 : time_range) (overlap_count : Int)
    (m : e_metric) : ℚ × Int :=
  if r1.2 < r2.1 ∨ r1.1 > r2.2 then (0, overlap_count)
  else (e.omega_function r1 (max r1.1 r2.1, min r1.2 r2.2) m, overlap_count + 1)

/-! ## Precision, recall, F-score -/

/-- One iteration of an inner loop of `compute_precision` / `compute_recall`:
`omega_reward += compute_omega_reward(own, other, overlap_count, m)`.  The state is
`(omega_reward, overlap_count)`. -/
def inner_step (e : evaluator) (own : time_range) (m : e_metric) (st : ℚ × Int)
    (other : time_range) : ℚ × Int :=
  let res := e.compute_omega_reward own other st.2 m
  (st.1 + res.1, res.2)

/-- C++ `evaluator::compute_precision`; the accumulator `precision_sum` is the local variable
`precision` of the source. -/
def compute_precision (e : evaluator) : ℚ :=
  if e.predicted_anomalies_.length = 0 then 0
  else
    let precision_sum := e.predicted_anomalies_.foldl
      (fun (precision_sum : ℚ) (range_p : time_range) =>
        let st := e.real_anomalies_.foldl (e.inner_step range_p e_precision) (0, 0)
        let omega_reward := st.1
        let overlap_count := st.2
        let overlap_reward := e.gamma_function overlap_count e_precision * omega_reward
        let existence_reward : ℚ := if overlap_count > 0 then 1 else 0
        precision_sum + (e.alpha_p_ * existence_reward + (1 - e.alpha_p_) * overlap_reward))
      0
    precision_sum / (e.predicted_anomalies_.length : ℚ)

/-- C++ `evaluator::compute_recall`; the accumulator `recall_sum` is the local variable
`recall` of the source. -/
def compute_recall (e : evaluator) : ℚ :=
  if e.real_anomalies_.length = 0 then 0
  else
    let recall_sum := e.real_anomalies_.foldl
      (fun (recall_sum : ℚ) (range_r : time_range) =>
        let st := e.predicted_anomalies_.foldl (e.inner_step range_r e_recall) (0, 0)
        let omega_reward := st.1
        let overlap_count := st.2
        let overlap_reward := e.gamma_function overlap_count e_recall * omega_reward
        let existence_reward : ℚ := if overlap_count > 0 then 1 else 0
        recall_sum + (e.alpha_r_ * existence_reward + (1 - e.alpha_r_) * overlap_reward))
      0
    recall_sum / (e.real_anomalies_.length : ℚ)

/-- C++ `evaluator::compute_fscore`, on the cached `precision_` and `recall_`; `pow(beta_, 2.0)`
is `beta_ ^ 2`.  The division is unguarded in the source: `none` stands for its result when
the denominator is zero. -/
def compute_fscore (e : evaluator) : Option ℚ :=
  let beta_sqr := e.beta_ ^ 2
  if beta_sqr * e.precision_ + e.recall_ = 0 then none
  else some ((1 + beta_sqr) * (e.precision_ * e.recall_) /
    (beta_sqr * e.precision_ + e.recall_))

/-- C++ `update_precision`. -/
def update_precision (e : evaluator) : evaluator :=
  { e with precision_ := e.compute_precision }

/-- C++ `update_recall`. -/
def update_recall (e : evaluator) : evaluator :=
  { e with recall_ := e.compute_recall }

/-- C++ `update_fscore`. -/
def update_fscore (e : evaluator) : evaluator :=
  { e with fscore_ := e.compute_fscore }

/-! ## Reference definitions for the aggregation formulas

These follow the wording of the specification, not the code; the theorems below compare them
with the code. -/

/-- The overlap test of the specification: `r` and `p` overlap unless `r.end < p.start` or
`r.start > p.end`. -/
def overlaps (r p : time_range) : Prop :=
  ¬ (r.2 < p.1 ∨ r.1 > p.2)

instance (r p : time_range) : Decidable (overlaps r p) := by
  unfold overlaps; infer_instance

/-- The overlap range `[max(r.start, p.start), min(r.end, p.end)]`. -/
def overlap_range (r p : time_range) : time_range :=
  (max r.1 p.1, min r.2 p.2)

/-- A well-formed range has `start ≤ end`. -/
def well_formed (r : time_range) : Prop :=
  r.1 ≤ r.2

instance (r : time_range) : Decidable (well_formed r) := by
  unfold well_formed; infer_instance

/-- The entries of `P` that overlap `r`, with multiplicity and in order. -/
def overlapping (r : time_range) (P : time_intervals) : time_intervals :=
  P.filter (fun p => overlaps r p)

/-- The recall formula of the specification:
`(1/|R|) * Σ_{r ∈ R} [alpha_r * e(r) + (1 - alpha_r) * gamma(c(r)) * Σ_{p overlaps r} omega(r, overlap(r, p))]`
with `c(r)` the number of entries of `P` overlapping `r` and `e(r) = 1` if `c(r) > 0`, else `0`. -/
def recall_formula (e : evaluator) : ℚ :=
  (1 / (e.real_anomalies_.length : ℚ)) *
    (e.real_anomalies_.map (fun r =>
      let c : Nat := (overlapping r e.predicted_anomalies_).length
      let ex : ℚ := if c > 0 then 1 else 0
      e.alpha_r_ * ex + (1 - e.alpha_r_) * (e.gamma_function (c : Int) e_recall *
        ((overlapping r e.predicted_anomalies_).map
          (fun p => e.omega_function r (max r.1 p.1, min r.2 p.2) e_recall)).sum))).sum

/-! ## Auxiliary definitions used in the proofs -/

/-- The weight that the loop of `omega_function` gives to its iteration `i = k + 1` on `range`. -/
def bias_at (e : evaluator) (range : time_range) (m : e_metric) (k : Nat) : ℚ :=
  e.delta_function ((k : Int) + 1) (range.2 - range.1 + 1) m

/-- The number of iterations of the loop of `omega_function` on `range`. -/
def loop_count (range : time_range) : Nat :=
  (range.2 - range.1 + 1).toNat

/-- The value that one iteration of an outer loop of `compute_precision` / `compute_recall`
adds to its accumulator, for the range `own` of the scored set, the other set `others`, the
existence weight `alpha` and the metric side `m`. -/
def contribution (e : evaluator) (alpha : ℚ) (m : e_metric) (others : time_intervals)
    (own : time_range) : ℚ :=
  let st := others.foldl (e.inner_step own m) (0, 0)
  alpha * (if st.2 > 0 then 1 else 0) + (1 - alpha) * (e.gamma_function st.2 m * st.1)

/-- No two entries of the list at different places overlap. -/
def pairwise_disjoint (S : time_intervals) : Prop :=
  S.Pairwise (fun a b => ¬ overlaps a b)

instance (S : time_intervals) : Decidable (pairwise_disjoint S) := by
  unfold pairwise_disjoint; infer_instance

/-! ## Setters of `evaluator.h`

A setter either assigns or throws.  Its result is the state of the object after the call
together with the thrown message, if any; a `throw` happens before any assignment of the
setter, so the state it leaves is the state it found. -/

/-- C++ `evaluator::set_beta`. -/
def set_beta (e : evaluator) (beta : ℚ) : evaluator × Option String :=
  if beta < 0 then (e, some "Error: Invalid beta value!")
  else ({ e with beta_ := beta }, none)

/-- C++ `evaluator::set_alpha_r`. -/
def set_alpha_r (e : evaluator) (alpha : ℚ) : evaluator × Option String :=
  if alpha < 0 ∨ alpha > 1 then (e, some "Error: Invalid alpha value!")
  else ({ e with alpha_r_ := alpha }, none)

/-- C++ `evaluator::set_gamma`: `gamma_p_ = gamma_r_ = gamma` for the three enumerators. -/
def set_gamma (e : evaluator) (gamma : overlap_cardinality) : evaluator × Option String :=
  if gamma = e_one ∨ gamma = e_reciprocal ∨ gamma = e_udf_gamma then
    ({ e with gamma_p_ := gamma, gamma_r_ := gamma }, none)
  else (e, some "Error: Invalid overlap cardinality value!")

/-- C++ `evaluator::is_valid_bias`. -/
def is_valid_bias (_e : evaluator) (bias : positional_bias) : Bool :=
  if bias = e_flat ∨ bias = e_front ∨ bias = e_middle ∨ bias = e_back ∨ bias = e_udf_delta
  then true
  else false

/-- C++ `evaluator::set_delta_p`. -/
def set_delta_p (e : evaluator) (bias : positional_bias) : evaluator × Option String :=
  if !e.is_valid_bias bias then (e, some "Error: Invalid positional bias value!")
  else ({ e with delta_p_ := bias }, none)

/-- C++ `evaluator::set_delta_r`. -/
def set_delta_r (e : evaluator) (bias : positional_bias) : evaluator × Option String :=
  if !e.is_valid_bias bias then (e, some "Error: Invalid positional bias value!")
  else ({ e with delta_r_ := bias }, none)

/-! ## The evaluator as a state machine -/

/-- A call of a state-changing public member function, with its argument. -/
inductive call where
  | set_beta (beta : ℚ)
  | set_alpha_r (alpha : ℚ)
  | set_gamma (gamma : overlap_cardinality)
  | set_delta_p (bias : positional_bias)
  | set_delta_r (bias : positional_bias)
  | update_precision
  | update_recall
  | update_fscore

/-- The state of the object after one call, whether the call returns or throws. -/
def step (e : evaluator) : call → evaluator
  | call.set_beta beta => (e.set_beta beta).1
  | call.set_alpha_r alpha => (e.set_alpha_r alpha).1
  | call.set_gamma gamma => (e.set_gamma gamma).1
  | call.set_delta_p bias => (e.set_delta_p bias).1
  | call.set_delta_r bias => (e.set_delta_r bias).1
  | call.update_precision => e.update_precision
  | call.update_recall => e.update_recall
  | call.update_fscore => e.update_fscore

/-- The state of the object after a sequence of calls. -/
def run (e : evaluator) (calls : List call) : evaluator :=
  calls.foldl step e

/-- The F-score formula of the specification, `(1 + beta²) * P * R / (beta² * P + R)`, applied
to given values; `none` when the denominator is zero. -/
def fscore_formula (beta P R : ℚ) : Option ℚ :=
  if beta ^ 2 * P + R = 0 then none
  else some ((1 + beta ^ 2) * P * R / (beta ^ 2 * P + R))

end evaluator

/-! ## Interval extraction of `main.cpp`

The input stream is embedded as the list of the labels that `data >> label` reads, in order. -/

/-- The local variables of `read_file` that its loop changes. -/
structure read_state where
  anomalies : time_intervals
  i : Int
  range : time_range
  range_started : Bool

/-- One iteration of the `while` loop of `read_file`, for the label just read; an invalid
label throws. -/
def read_file_step (st : read_state) (label : Int) : Except String read_state :=
  if label = 1 then
    if !st.range_started then
      Except.ok ⟨st.anomalies, st.i + 1, (st.i, st.i), true⟩
    else
      Except.ok ⟨st.anomalies, st.i + 1, (st.range.1, st.i), st.range_started⟩
  else if label = 0 then
    if st.range_started then
      Except.ok ⟨st.anomalies ++ [st.range], st.i + 1, st.range, false⟩
    else
      Except.ok ⟨st.anomalies, st.i + 1, st.range, st.range_started⟩
  else
    Except.error "Error: Invalid anomaly label!"

/-- The `while (data >> label)` loop of `read_file`. -/
def read_file_loop : List Int → read_state → Except String read_state
  | [], st => Except.ok st
  | label :: data, st =>
    match read_file_step st label with
    | Except.ok st1 => read_file_loop data st1
    | Except.error msg => Except.error msg

/-- C++ `read_file`: the returned intervals together with the value stored in `count`.  The
variable `range` is uninitialised before the first anomaly label and is not read before it
is assigned; it starts as `(0, 0)` here. -/
def read_file (data : List Int) : Except String (time_intervals × Int) :=
  match read_file_loop data ⟨[], 0, (0, 0), false⟩ with
  | Except.ok st =>
    Except.ok (if st.range_started then st.anomalies ++ [st.range] else st.anomalies, st.i)
  | Except.error msg => Except.error msg

/-- One iteration of the `while` loop of `read_file_unitsize`; the state is
`(anomalies, i)`. -/
def read_file_unitsize_step (st : time_intervals × Int) (label : Int) :
    Except String (time_intervals × Int) :=
  if label = 1 then Except.ok (st.1 ++ [(st.2, st.2)], st.2 + 1)
  else if label = 0 then Except.ok (st.1, st.2 + 1)
  else Except.error "Error: Invalid anomaly label!"

/-- The `while (data >> label)` loop of `read_file_unitsize`. -/
def read_file_unitsize_loop :
    List Int → time_intervals × Int → Except String (time_intervals × Int)
  | [], st => Except.ok st
  | label :: data, st =>
    match read_file_unitsize_step st label with
    | Except.ok st1 => read_file_unitsize_loop data st1
    | Except.error msg => Except.error msg

/-- C++ `read_file_unitsize`: the returned intervals together with the value stored in
`count`. -/
def read_file_unitsize (data : List Int) : Except String (time_intervals × Int) :=
  read_file_unitsize_loop data ([], 0)

/-! ## Auxiliary definitions for the interval extraction -/

/-- Position `k` lies in some range of the list. -/
def covered (l : time_intervals) (k : Int) : Prop :=
  ∃ r ∈ l, r.1 ≤ k ∧ k ≤ r.2

/-- Position `k` is a 0-based position of the label sequence that carries the label 1. -/
def is_anomaly (labels : List Int) (k : Int) : Prop :=
  0 ≤ k ∧ labels[k.toNat]? = some 1

/-- The invariant of the loop of `read_file` after the labels `pre` have been read: the
closed ranges are well-formed and separated by gaps, the open range (if any) ends at the last
label read and lies beyond the closed ones, and the closed ranges together with the open
range cover exactly the positions labelled 1. -/
def read_inv (pre : List Int) (st : read_state) : Prop :=
  st.i = (pre.length : Int) ∧
  (∀ r ∈ st.anomalies, r.1 ≤ r.2) ∧
  st.anomalies.Pairwise (fun a b => a.2 + 2 ≤ b.1) ∧
  (st.range_started = true →
    st.range.1 ≤ st.range.2 ∧ st.range.2 + 1 = st.i ∧
      ∀ r ∈ st.anomalies, r.2 + 2 ≤ st.range.1) ∧
  (st.range_started = false → ∀ r ∈ st.anomalies, r.2 + 2 ≤ st.i) ∧
  (∀ k : Int, (covered st.anomalies k ∨
      (st.range_started = true ∧ st.range.1 ≤ k ∧ k ≤ st.range.2)) ↔ is_anomaly pre k)

/-! ## Machine numbers: IEEE-754 doubles and 32-bit integers

The definitions above take `double` as exact rationals and `int` as unbounded integers.  The
definitions of this part run the same code on the machine numbers: `double` as IEEE-754
binary64 with round-to-nearest, ties-to-even, every operation rounded once (no fused
multiply-add, no extended precision), and `int` as 32-bit two's complement, where an
overflowing operation (undefined behaviour in C++) wraps around.  They are used to evaluate
the code at concrete inputs on which rounding, overflow or underflow change the result. -/

/-- An IEEE-754 binary64 value: a finite value `(-1)^neg * m * 2^e`, an infinity, or NaN.
The operations below return finite values in canonical form: `2^52 ≤ m < 2^53` and
`-1074 ≤ e ≤ 971` (normal), or `m < 2^52` and `e = -1074` (subnormal and zero). -/
inductive dbl where
  | fin (neg : Bool) (m : Nat) (e : Int)
  | inf (neg : Bool)
  | nan
  deriving DecidableEq

namespace dbl

/-- The number of binary digits of `n` (0 for 0), for `n < 2^8192`. -/
def bit_length (n : Nat) : Nat :=
  ([4096, 2048, 1024, 512, 256, 128, 64, 32, 16, 8, 4, 2, 1].foldl
    (fun (st : Nat × Nat) (k : Nat) =>
      if st.1 >>> k = 0 then st else (st.1 >>> k, st.2 + k)) (n, 0)).2 +
    (if n = 0 then 0 else 1)

/-- The double `+0.0` (`neg = false`) or `-0.0`. -/
def zero (neg : Bool) : dbl :=
  fin neg 0 (-1074)

/-- The double nearest to `(-1)^neg * n / d` for `d > 0`, ties to even: the quotient is cut
to 53 binary digits (fewer below `2^-1022`), rounded on the remainder, and replaced by an
infinity from `2^1024` on. -/
def round (neg : Bool) (n d : Nat) : dbl :=
  if n = 0 then zero neg
  else
    let e1 : Int := (bit_length n : Int) - (bit_length d : Int) - 52
    let q1 : Nat := if e1 < 0 then (n <<< (-e1).toNat) / d else n / (d <<< e1.toNat)
    let e2 : Int := if q1 < 1 <<< 52 then e1 - 1 else e1
    let e : Int := if e2 < -1074 then -1074 else e2
    let num : Nat := if e < 0 then n <<< (-e).toNat else n
    let den : Nat := if e < 0 then d else d <<< e.toNat
    let q : Nat := num / den
    let r : Nat := num % den
    let m : Nat := if 2 * r > den ∨ (2 * r = den ∧ q % 2 = 1) then q + 1 else q
    if m = 1 <<< 53 then (if e + 1 > 971 then inf neg else fin neg (1 <<< 52) (e + 1))
    else if e > 971 then inf neg
    else fin neg m e

/-- The conversion `(double) z` of an integer. -/
def ofInt (z : Int) : dbl :=
  round (decide (z < 0)) z.natAbs 1

/-- The double `1.0`. -/
def one : dbl :=
  ofInt 1

/-- The integer `(-1)^neg * m * 2^shift`. -/
def scaled (neg : Bool) (m shift : Nat) : Int :=
  if neg then -((m <<< shift : Nat) : Int) else ((m <<< shift : Nat) : Int)

/-- The double `-x`. -/
def neg : dbl → dbl
  | fin a m e => fin (!a) m e
  | inf a => inf (!a)
  | nan => nan

/-- The double `x + y`. -/
def add : dbl → dbl → dbl
  | nan, _ => nan
  | _, nan => nan
  | inf a, inf b => if a = b then inf a else nan
  | inf a, fin _ _ _ => inf a
  | fin _ _ _, inf b => inf b
  | fin a m1 e1, fin b m2 e2 =>
    let e : Int := min e1 e2
    let s : Int := scaled a m1 (e1 - e).toNat + scaled b m2 (e2 - e).toNat
    if s = 0 then zero (a && b)
    else if e < 0 then round (decide (s < 0)) s.natAbs (1 <<< (-e).toNat)
    else round (decide (s < 0)) (s.natAbs <<< e.toNat) 1

/-- The double `x - y`. -/
def sub (x y : dbl) : dbl :=
  add x (neg y)

/-- The double `x * y`. -/
def mul : dbl → dbl → dbl
  | nan, _ => nan
  | _, nan => nan
  | inf a, inf b => inf (a != b)
  | inf a, fin b m _ => if m = 0 then nan else inf (a != b)
  | fin a m _, inf b => if m = 0 then nan else inf (a != b)
  | fin a m1 e1, fin b m2 e2 =>
    if e1 + e2 < 0 then round (a != b) (m1 * m2) (1 <<< (-(e1 + e2)).toNat)
    else round (a != b) ((m1 * m2) <<< (e1 + e2).toNat) 1

/-- The double `x / y`; `0/0` is NaN and a non-zero value over zero is an infinity. -/
def div : dbl → dbl → dbl
  | nan, _ => nan
  | _, nan => nan
  | inf _, inf _ => nan
  | inf a, fin b _ _ => inf (a != b)
  | fin a _ _, inf b => zero (a != b)
  | fin a m1 e1, fin b m2 e2 =>
    if m2 = 0 then (if m1 = 0 then nan else inf (a != b))
    else if e1 - e2 < 0 then round (a != b) m1 (m2 <<< (e2 - e1).toNat)
    else round (a != b) (m1 <<< (e1 - e2).toNat) m2

/-- The comparison `x < y`; false when either side is NaN. -/
def lt : dbl → dbl → Bool
  | nan, _ => false
  | _, nan => false
  | inf a, inf b => a && !b
  | inf a, fin _ _ _ => a
  | fin _ _ _, inf b => !b
  | fin a m1 e1, fin b m2 e2 =>
    decide (scaled a m1 (e1 - min e1 e2).toNat < scaled b m2 (e2 - min e1 e2).toNat)

end dbl

namespace machine

/-- C++ `INT_MAX` for the 32-bit `int`. -/
def INT_MAX : Int :=
  2147483647

/-- The value a 32-bit two's complement `int` holds for the integer `x`. -/
def wrap_int (x : Int) : Int :=
  (x + 2147483648) % 4294967296 - 2147483648

/-- The data members of `class evaluator` on machine numbers; the range sets hold values of
the C++ `int`, between `-2^31` and `2^31 - 1`. -/
structure evaluator where
  beta_ : dbl
  alpha_p_ : dbl
  alpha_r_ : dbl
  gamma_p_ : overlap_cardinality
  gamma_r_ : overlap_cardinality
  delta_p_ : positional_bias
  delta_r_ : positional_bias
  precision_ : dbl
  recall_ : dbl
  fscore_ : dbl
  real_anomalies_ : time_intervals
  predicted_anomalies_ : time_intervals
  deriving DecidableEq

namespace evaluator

/-- The constructor `evaluator(real, predicted, beta, alpha_r, gamma, delta_p, delta_r)`. -/
def ctor_config (real predicted : time_intervals) (beta alpha_r : dbl)
    (gamma : overlap_cardinality) (delta_p delta_r : positional_bias) : evaluator :=
  ⟨beta, dbl.zero false, alpha_r, gamma, gamma, delta_p, delta_r, dbl.zero false,
    dbl.zero false, dbl.zero false, real, predicted⟩

/-- The shipped body of `udf_gamma_def`: `return_val = 1.0`. -/
def udf_gamma_def (_e : evaluator) (_overlap_count : Int) (_m : e_metric) : dbl :=
  dbl.one

/-- The shipped body of `udf_delta_def`: `return_val = 1.0` on both sides. -/
def udf_delta_def (_e : evaluator) (_t _anomaly_length : Int) (m : e_metric) : dbl :=
  if m = e_precision then dbl.one
  else if m = e_recall then dbl.one
  else dbl.one

/-- The `switch (gamma)` of `gamma_select`. -/
def gamma_select (e : evaluator) (gamma : overlap_cardinality) (overlap : Int)
    (m : e_metric) : dbl :=
  if gamma = e_one then dbl.one
  else if gamma = e_reciprocal then
    (if overlap > 1 then dbl.div dbl.one (dbl.ofInt overlap) else dbl.one)
  else if gamma = e_udf_gamma then
    (if overlap > 1 then dbl.div dbl.one (e.udf_gamma_def overlap m) else dbl.one)
  else dbl.one

/-- The `switch (m)` of `gamma_function`. -/
def gamma_function (e : evaluator) (overlap : Int) (m : e_metric) : dbl :=
  if m = e_precision then e.gamma_select e.gamma_p_ overlap m
  else if m = e_recall then e.gamma_select e.gamma_r_ overlap m
  else dbl.one

/-- The `switch (delta)` of `delta_select`, with the `int` operations wrapped. -/
def delta_select (e : evaluator) (delta : positional_bias) (t anomaly_length : Int)
    (m : e_metric) : dbl :=
  if delta = e_flat then dbl.one
  else if delta = e_front then dbl.ofInt (wrap_int (wrap_int (anomaly_length - t) + 1))
  else if delta = e_middle then
    (if t ≤ Int.tdiv anomaly_length 2 then dbl.ofInt t
     else dbl.ofInt (wrap_int (wrap_int (anomaly_length - t) + 1)))
  else if delta = e_back then dbl.ofInt t
  else if delta = e_udf_delta then e.udf_delta_def t anomaly_length m
  else dbl.one

/-- The `switch (m)` of `delta_function`. -/
def delta_function (e : evaluator) (t anomaly_length : Int) (m : e_metric) : dbl :=
  if m = e_precision then e.delta_select e.delta_p_ t anomaly_length m
  else if m = e_recall then e.delta_select e.delta_r_ t anomaly_length m
  else dbl.one

/-- One iteration of the `for` loop of `omega_function`, for the loop index `i = k + 1`.
The state is `(my_positional_bias, max_positional_bias)`. -/
def omega_step (e : evaluator) (range overlap : time_range) (m : e_metric)
    (anomaly_length : Int) (st : dbl × dbl) (k : Nat) : dbl × dbl :=
  let i : Int := (k : Int) + 1
  let temp_bias := e.delta_function i anomaly_length m
  let max_positional_bias := dbl.add st.2 temp_bias
  let j : Int := wrap_int (wrap_int (range.1 + i) - 1)
  if j ≥ overlap.1 ∧ j ≤ overlap.2 then (dbl.add st.1 temp_bias, max_positional_bias)
  else (st.1, max_positional_bias)

/-- C++ `evaluator::omega_function`.  `anomaly_length` is the wrapped `int`; the loop
`for (i = 1; i <= anomaly_length; ++i)` runs `anomaly_length` times when that is positive and
below `INT_MAX`, not at all when it is not positive, and does not end when it is `INT_MAX`
(the test `i <= INT_MAX` never fails): the result is then `none`. -/
def omega_function (e : evaluator) (range overlap : time_range) (m : e_metric) :
    Option dbl :=
  let anomaly_length : Int := wrap_int (wrap_int (range.2 - range.1) + 1)
  if anomaly_length = INT_MAX then none
  else
    let st := (List.range anomaly_length.toNat).foldl
      (e.omega_step range overlap m anomaly_length) (dbl.zero false, dbl.zero false)
    if dbl.lt (dbl.zero false) st.2 then some (dbl.div st.1 st.2) else some (dbl.zero false)

/-- C++ `evaluator::compute_omega_reward`: the returned reward together with the new value of
`overlap_count`, or `none` when `omega_function` does not return. -/
def compute_omega_reward (e : evaluator) (r1 r2 : time_range) (overlap_count : Int)
    (m : e_metric) : Option (dbl × Int) :=
  if r1.2 < r2.1 ∨ r1.1 > r2.2 then some (dbl.zero false, overlap_count)
  else
    match e.omega_function r1 (max r1.1 r2.1, min r1.2 r2.2) m with
    | some w => some (w, wrap_int (overlap_count + 1))
    | none => none

/-- An inner loop of `compute_precision` / `compute_recall` over the other set, from the
state `(omega_reward, overlap_count)`. -/
def inner_loop (e : evaluator) (own : time_range) (m : e_metric) :
    time_intervals → dbl × Int → Option (dbl × Int)
  | [], st => some st
  | other :: others, st =>
    match e.compute_omega_reward own other st.2 m with
    | some res => inner_loop e own m others (dbl.add st.1 res.1, res.2)
    | none => none

/-- An outer loop of `compute_precision` / `compute_recall` over the scored set, from the
accumulated sum: `sum += alpha * existence_reward + (1.0 - alpha) * overlap_reward`. -/
def outer_loop (e : evaluator) (alpha : dbl) (m : e_metric) (others : time_intervals) :
    time_intervals → dbl → Option dbl
  | [], acc => some acc
  | own :: owns, acc =>
    match e.inner_loop own m others (dbl.zero false, 0) with
    | some st =>
      let omega_reward := st.1
      let overlap_count := st.2
      let overlap_reward := dbl.mul (e.gamma_function overlap_count m) omega_reward
      let existence_reward : dbl := if overlap_count > 0 then dbl.one else dbl.zero false
      outer_loop e alpha m others owns
        (dbl.add acc (dbl.add (dbl.mul alpha existence_reward)
          (dbl.mul (dbl.sub dbl.one alpha) overlap_reward)))
    | none => none

/-- C++ `evaluator::compute_precision`. -/
def compute_precision (e : evaluator) : Option dbl :=
  if e.predicted_anomalies_.length = 0 then some (dbl.zero false)
  else
    match e.outer_loop e.alpha_p_ e_precision e.real_anomalies_ e.predicted_anomalies_
        (dbl.zero false) with
    | some precision_sum =>
      some (dbl.div precision_sum (dbl.ofInt (e.predicted_anomalies_.length : Int)))
    | none => none

/-- C++ `evaluator::compute_recall`. -/
def compute_recall (e : evaluator) : Option dbl :=
  if e.real_anomalies_.length = 0 then some (dbl.zero false)
  else
    match e.outer_loop e.alpha_r_ e_recall e.predicted_anomalies_ e.real_anomalies_
        (dbl.zero false) with
    | some recall_sum =>
      some (dbl.div recall_sum (dbl.ofInt (e.real_anomalies_.length : Int)))
    | none => none

/-- C++ `evaluator::compute_fscore`; `pow(beta_, 2.0)` is the rounded product
`beta_ * beta_`, and the unguarded division returns NaN or an infinity on a zero
denominator. -/
def compute_fscore (e : evaluator) : dbl :=
  let beta_sqr := dbl.mul e.beta_ e.beta_
  dbl.div (dbl.mul (dbl.add dbl.one beta_sqr) (dbl.mul e.precision_ e.recall_))
    (dbl.add (dbl.mul beta_sqr e.precision_) e.recall_)

/-- C++ `update_precision`; `none` when `compute_precision` does not return. -/
def update_precision (e : evaluator) : Option evaluator :=
  match e.compute_precision with
  | some p => some { e with precision_ := p }
  | none => none

/-- C++ `update_recall`; `none` when `compute_recall` does not return. -/
def update_recall (e : evaluator) : Option evaluator :=
  match e.compute_recall with
  | some r => some { e with recall_ := r }
  | none => none

/-- C++ `update_fscore`. -/
def update_fscore (e : evaluator) : evaluator :=
  { e with fscore_ := e.compute_fscore }

end evaluator

end machine

end anomaly

/-! # Theorems -/

namespace anomaly

namespace evaluator

/-! ## The loops as sums -/

theorem overlapping_cons (r p : time_range) (P : time_intervals) :
    overlapping r (p :: P) = if overlaps r p then p :: overlapping r P else overlapping r P := by
  unfold overlapping
  by_cases h : overlaps r p <;> simp [List.filter_cons, h]

/-- The inner loop of `compute_precision` / `compute_recall` adds, to the reward, the omega of
every overlapping entry and, to the counter, the number of overlapping entries. -/
theorem inner_fold_eq (e : evaluator) (r : time_range) (m : e_metric) (P : time_intervals)
    (st : ℚ × Int) :
    P.foldl (e.inner_step r m) st =
      (st.1 + ((overlapping r P).map (fun p => e.omega_function r (overlap_range r p) m)).sum,
       st.2 + ((overlapping r P).length : Int)) := by
  induction P generalizing st with
  | nil => simp [overlapping]
  | cons p P ih =>
    rw [List.foldl_cons, ih, overlapping_cons]
    by_cases h : overlaps r p
    · have h2 : ¬ (r.2 < p.1 ∨ r.1 > p.2) := h
      simp only [inner_step, compute_omega_reward, h2, if_false, h, if_true, List.map_cons,
        List.sum_cons, List.length_cons, overlap_range]
      ext
      · simp only; ring
      · simp only; push_cast; ring
    · have h2 : r.2 < p.1 ∨ r.1 > p.2 := by
        unfold overlaps at h; exact not_not.mp h
      simp only [inner_step, compute_omega_reward, h2, if_true, h, if_false, add_zero]

/-- An accumulating loop is a sum. -/
theorem foldl_add_eq_sum {α : Type} (f : α → ℚ) (l : List α) (a : ℚ) :
    l.foldl (fun acc x => acc + f x) a = a + (l.map f).sum := by
  induction l generalizing a with
  | nil => simp
  | cons x l ih => rw [List.foldl_cons, ih, List.map_cons, List.sum_cons]; ring

/-! ## The loop of `omega_function` as a pair of sums -/

theorem list_range_sum (f : Nat → ℚ) (n : Nat) :
    ((List.range n).map f).sum = ∑ k in Finset.range n, f k := by
  induction n with
  | zero => simp
  | succ n ih => rw [List.range_succ, List.map_append, List.sum_append, ih, Finset.sum_range_succ]; simp

theorem omega_fold_eq (e : evaluator) (range overlap : time_range) (m : e_metric)
    (l : List Nat) (st : ℚ × ℚ) :
    l.foldl (e.omega_step range overlap m (range.2 - range.1 + 1)) st =
      (st.1 + (l.map (fun (k : Nat) =>
          if overlap.1 ≤ range.1 + (k : Int) ∧ range.1 + (k : Int) ≤ overlap.2
          then e.bias_at range m k else 0)).sum,
       st.2 + (l.map (fun (k : Nat) => e.bias_at range m k)).sum) := by
  induction l generalizing st with
  | nil => simp
  | cons k l ih =>
    rw [List.foldl_cons, ih]
    have hj : range.1 + ((k : Int) + 1) - 1 = range.1 + (k : Int) := by ring
    by_cases h : overlap.1 ≤ range.1 + (k : Int) ∧ range.1 + (k : Int) ≤ overlap.2
    · simp only [omega_step, hj, ge_iff_le, h, and_self, if_true, List.map_cons, List.sum_cons,
        bias_at]
      ext <;> simp only <;> ring
    · simp only [omega_step, hj, ge_iff_le, h, if_false, List.map_cons, List.sum_cons,
        bias_at]
      ext <;> simp only <;> ring

theorem omega_loop_eq (e : evaluator) (range overlap : time_range) (m : e_metric) :
    e.omega_loop range overlap m =
      (∑ k in Finset.range (loop_count range),
          (if overlap.1 ≤ range.1 + (k : Int) ∧ range.1 + (k : Int) ≤ overlap.2
            then e.bias_at range m k else 0),
       ∑ k in Finset.range (loop_count range), e.bias_at range m k) := by
  unfold omega_loop
  simp only [omega_fold_eq, zero_add, list_range_sum, loop_count]

theorem delta_select_pos (e : evaluator) (delta : positional_bias) (t L : Int)
    (m : e_metric) (h1 : 1 ≤ t) (h2 : t ≤ L) : 0 < e.delta_select delta t L m := by
  unfold delta_select udf_delta_def
  have ht : (0 : ℚ) < (t : ℚ) := by exact_mod_cast (by omega : (0 : Int) < t)
  have hf : (0 : ℚ) < ((L - t + 1 : Int) : ℚ) := by exact_mod_cast (by omega : (0 : Int) < L - t + 1)
  split_ifs <;> first | exact ht | exact hf | norm_num

theorem delta_function_pos (e : evaluator) (t L : Int)
    (m : e_metric) (h1 : 1 ≤ t) (h2 : t ≤ L) : 0 < e.delta_function t L m := by
  unfold delta_function
  split_ifs <;> first | exact delta_select_pos e _ t L m h1 h2 | norm_num

theorem bias_at_pos (e : evaluator) (range : time_range) (m : e_metric) (k : Nat)
    (hk : k < loop_count range) : 0 < e.bias_at range m k := by
  unfold bias_at
  unfold loop_count at hk
  apply delta_function_pos <;> omega

/-! ## Bounds on omega and gamma -/

theorem max_bias_nonneg (e : evaluator) (range : time_range) (m : e_metric) :
    0 ≤ ∑ k in Finset.range (loop_count range), e.bias_at range m k :=
  Finset.sum_nonneg (fun k hk => le_of_lt (bias_at_pos e range m k (Finset.mem_range.mp hk)))

theorem max_bias_pos (e : evaluator) (range : time_range) (m : e_metric)
    (h : 0 < loop_count range) :
    0 < ∑ k in Finset.range (loop_count range), e.bias_at range m k :=
  Finset.sum_pos (fun k hk => bias_at_pos e range m k (Finset.mem_range.mp hk))
    ⟨0, Finset.mem_range.mpr h⟩

theorem captured_nonneg (e : evaluator) (range overlap : time_range) (m : e_metric) :
    0 ≤ ∑ k in Finset.range (loop_count range),
      (if overlap.1 ≤ range.1 + (k : Int) ∧ range.1 + (k : Int) ≤ overlap.2
        then e.bias_at range m k else 0) := by
  apply Finset.sum_nonneg
  intro k hk
  split_ifs
  · exact le_of_lt (bias_at_pos e range m k (Finset.mem_range.mp hk))
  · exact le_refl 0

theorem captured_le_max (e : evaluator) (range overlap : time_range) (m : e_metric) :
    ∑ k in Finset.range (loop_count range),
      (if overlap.1 ≤ range.1 + (k : Int) ∧ range.1 + (k : Int) ≤ overlap.2
        then e.bias_at range m k else 0) ≤
    ∑ k in Finset.range (loop_count range), e.bias_at range m k := by
  apply Finset.sum_le_sum
  intro k hk
  split_ifs
  · exact le_refl _
  · exact le_of_lt (bias_at_pos e range m k (Finset.mem_range.mp hk))

/-- The value of `omega_function` in terms of the two sums of its loop. -/
theorem omega_function_eq (e : evaluator) (range overlap : time_range) (m : e_metric) :
    e.omega_function range overlap m =
      if 0 < ∑ k in Finset.range (loop_count range), e.bias_at range m k then
        (∑ k in Finset.range (loop_count range),
          (if overlap.1 ≤ range.1 + (k : Int) ∧ range.1 + (k : Int) ≤ overlap.2
            then e.bias_at range m k else 0)) /
        (∑ k in Finset.range (loop_count range), e.bias_at range m k)
      else 0 := by
  unfold omega_function
  simp only [omega_loop_eq, gt_iff_lt]

theorem omega_function_nonneg (e : evaluator) (range overlap : time_range) (m : e_metric) :
    0 ≤ e.omega_function range overlap m := by
  rw [omega_function_eq]
  split_ifs with h
  · exact div_nonneg (captured_nonneg e range overlap m) (le_of_lt h)
  · exact le_refl 0

theorem omega_function_le_one (e : evaluator) (range overlap : time_range) (m : e_metric) :
    e.omega_function range overlap m ≤ 1 := by
  rw [omega_function_eq]
  split_ifs with h
  · exact (div_le_one h).mpr (captured_le_max e range overlap m)
  · exact zero_le_one

theorem gamma_select_pos (e : evaluator) (gamma : overlap_cardinality) (overlap : Int)
    (m : e_metric) : 0 < e.gamma_select gamma overlap m := by
  unfold gamma_select udf_gamma_def
  split_ifs with h1 h2 h3 h4 h5 <;> try norm_num
  have : (0 : ℚ) < (overlap : ℚ) := by exact_mod_cast (by omega : (0 : Int) < overlap)
  positivity

theorem gamma_select_le_one (e : evaluator) (gamma : overlap_cardinality) (overlap : Int)
    (m : e_metric) : e.gamma_select gamma overlap m ≤ 1 := by
  unfold gamma_select udf_gamma_def
  split_ifs with h1 h2 h3 h4 h5 <;> try norm_num
  have h : (1 : ℚ) ≤ (overlap : ℚ) := by exact_mod_cast (by omega : (1 : Int) ≤ overlap)
  exact inv_le_one_of_one_le₀ h

theorem gamma_function_pos (e : evaluator) (overlap : Int) (m : e_metric) :
    0 < e.gamma_function overlap m := by
  unfold gamma_function
  split_ifs <;> first | exact gamma_select_pos _ _ _ _ | norm_num

theorem gamma_function_le_one (e : evaluator) (overlap : Int) (m : e_metric) :
    e.gamma_function overlap m ≤ 1 := by
  unfold gamma_function
  split_ifs <;> first | exact gamma_select_le_one _ _ _ _ | norm_num

/-- With at most one overlap every selector gives the multiplier `1`. -/
theorem gamma_function_small (e : evaluator) (overlap : Int) (m : e_metric) (h : overlap ≤ 1) :
    e.gamma_function overlap m = 1 := by
  have h2 : ¬ overlap > 1 := by omega
  unfold gamma_function gamma_select
  simp only [h2, if_false]
  split_ifs <;> rfl

/-! ## Precision and recall as averages of contributions -/

theorem compute_precision_eq (e : evaluator) :
    e.compute_precision =
      if e.predicted_anomalies_.length = 0 then 0
      else (e.predicted_anomalies_.map
          (e.contribution e.alpha_p_ e_precision e.real_anomalies_)).sum /
        (e.predicted_anomalies_.length : ℚ) := by
  unfold compute_precision
  split_ifs with h
  · rfl
  · have := foldl_add_eq_sum (e.contribution e.alpha_p_ e_precision e.real_anomalies_)
      e.predicted_anomalies_ 0
    rw [zero_add] at this
    rw [← this]
    rfl

theorem compute_recall_eq (e : evaluator) :
    e.compute_recall =
      if e.real_anomalies_.length = 0 then 0
      else (e.real_anomalies_.map
          (e.contribution e.alpha_r_ e_recall e.predicted_anomalies_)).sum /
        (e.real_anomalies_.length : ℚ) := by
  unfold compute_recall
  split_ifs with h
  · rfl
  · have := foldl_add_eq_sum (e.contribution e.alpha_r_ e_recall e.predicted_anomalies_)
      e.real_anomalies_ 0
    rw [zero_add] at this
    rw [← this]
    rfl

/-- The contribution of a range in terms of the entries of the other set that overlap it. -/
theorem contribution_eq (e : evaluator) (alpha : ℚ) (m : e_metric) (others : time_intervals)
    (own : time_range) :
    e.contribution alpha m others own =
      alpha * (if 0 < (overlapping own others).length then 1 else 0) +
      (1 - alpha) * (e.gamma_function ((overlapping own others).length : Int) m *
        ((overlapping own others).map
          (fun p => e.omega_function own (overlap_range own p) m)).sum) := by
  unfold contribution
  simp only [inner_fold_eq, zero_add, gt_iff_lt, Nat.cast_pos]

/-- The average of values that all lie in `[0, 1]` lies in `[0, 1]`. -/
theorem average_bounds {α : Type} (f : α → ℚ) (l : List α)
    (h : ∀ x ∈ l, 0 ≤ f x ∧ f x ≤ 1) :
    0 ≤ (l.map f).sum ∧ (l.map f).sum ≤ (l.length : ℚ) := by
  induction l with
  | nil => simp
  | cons x l ih =>
    have hx := h x (List.mem_cons_self x l)
    have hl := ih (fun y hy => h y (List.mem_cons_of_mem x hy))
    simp only [List.map_cons, List.sum_cons, List.length_cons, Nat.cast_add, Nat.cast_one]
    constructor <;> linarith [hx.1, hx.2, hl.1, hl.2]

theorem average_in_unit {α : Type} (f : α → ℚ) (l : List α)
    (h : ∀ x ∈ l, 0 ≤ f x ∧ f x ≤ 1) :
    0 ≤ (if l.length = 0 then 0 else (l.map f).sum / (l.length : ℚ)) ∧
    (if l.length = 0 then 0 else (l.map f).sum / (l.length : ℚ)) ≤ 1 := by
  have hb := average_bounds f l h
  split_ifs with h0
  · exact ⟨le_refl 0, zero_le_one⟩
  · have hpos : (0 : ℚ) < (l.length : ℚ) := by
      exact_mod_cast Nat.pos_of_ne_zero h0
    exact ⟨div_nonneg hb.1 (le_of_lt hpos), (div_le_one hpos).mpr hb.2⟩

/-- The summed omega reward of a range is non-negative. -/
theorem omega_sum_nonneg (e : evaluator) (m : e_metric) (own : time_range)
    (l : time_intervals) :
    0 ≤ (l.map (fun p => e.omega_function own (overlap_range own p) m)).sum := by
  apply List.sum_nonneg
  intro x hx
  obtain ⟨_, _, rfl⟩ := List.mem_map.mp hx
  exact omega_function_nonneg e own _ m

/-- The summed omega reward of a range never exceeds the number of summands. -/
theorem omega_sum_le_length (e : evaluator) (m : e_metric) (own : time_range)
    (l : time_intervals) :
    (l.map (fun p => e.omega_function own (overlap_range own p) m)).sum ≤ (l.length : ℚ) :=
  (average_bounds (fun p => e.omega_function own (overlap_range own p) m) l
    (fun _ _ => ⟨omega_function_nonneg e own _ m, omega_function_le_one e own _ m⟩)).2

/-- A contribution is non-negative when the existence weight is in `[0, 1]`. -/
theorem contribution_nonneg (e : evaluator) (alpha : ℚ) (m : e_metric)
    (others : time_intervals) (own : time_range) (h0 : 0 ≤ alpha) (h1 : alpha ≤ 1) :
    0 ≤ e.contribution alpha m others own := by
  rw [contribution_eq]
  have hg := le_of_lt (gamma_function_pos e ((overlapping own others).length : Int) m)
  have hs := omega_sum_nonneg e m own (overlapping own others)
  have hex : (0 : ℚ) ≤ (if 0 < (overlapping own others).length then 1 else 0) := by
    split_ifs <;> norm_num
  have h2 : 0 ≤ 1 - alpha := by linarith
  positivity

/-- A contribution is at most `1` when the existence weight is in `[0, 1]` and the overlap
reward (multiplier times summed omega) is at most `1`. -/
theorem contribution_le_one (e : evaluator) (alpha : ℚ) (m : e_metric)
    (others : time_intervals) (own : time_range) (h0 : 0 ≤ alpha) (h1 : alpha ≤ 1)
    (hr : e.gamma_function ((overlapping own others).length : Int) m *
        ((overlapping own others).map
          (fun p => e.omega_function own (overlap_range own p) m)).sum ≤ 1) :
    e.contribution alpha m others own ≤ 1 := by
  rw [contribution_eq]
  have hex : (if 0 < (overlapping own others).length then (1 : ℚ) else 0) ≤ 1 := by
    split_ifs <;> norm_num
  have h2 : 0 ≤ 1 - alpha := by linarith
  nlinarith [mul_le_mul_of_nonneg_left hex h0, mul_le_mul_of_nonneg_left hr h2]

/-! ## The summed omega reward against a set of pairwise non-overlapping ranges -/

/-- In a list of pairwise non-overlapping ranges at most one entry contains a given position. -/
theorem countP_le_one_of_disjoint (own : time_range) (j : Int) (l : time_intervals)
    (hl : pairwise_disjoint l) :
    l.countP (fun p => decide ((overlap_range own p).1 ≤ j ∧ j ≤ (overlap_range own p).2)) ≤ 1 := by
  induction l with
  | nil => simp
  | cons p l ih =>
    have hp := List.pairwise_cons.mp hl
    have ih2 := ih hp.2
    rw [List.countP_cons]
    by_cases hj : (overlap_range own p).1 ≤ j ∧ j ≤ (overlap_range own p).2
    · have hz : l.countP
          (fun p => decide ((overlap_range own p).1 ≤ j ∧ j ≤ (overlap_range own p).2)) = 0 := by
        rw [List.countP_eq_zero]
        intro q hq hqj
        have hno := hp.1 q hq
        simp only [decide_eq_true_eq, overlap_range] at hqj
        simp only [overlap_range] at hj
        apply hno
        unfold overlaps
        have h1 := hj.1
        have h2 := hj.2
        have h3 := hqj.1
        have h4 := hqj.2
        have a1 := le_max_right own.1 p.1
        have a2 := min_le_right own.2 p.2
        have a3 := le_max_right own.1 q.1
        have a4 := min_le_right own.2 q.2
        omega
      rw [hz]
      split_ifs <;> omega
    · simp only [hj, decide_False, Bool.false_eq_true, if_false, add_zero]
      exact ih2

/-- The captured biases of a range against the entries of a list, summed over the list, count
every position of the range as often as there are entries containing it. -/
theorem captured_sum_eq (e : evaluator) (m : e_metric) (own : time_range)
    (l : time_intervals) :
    (l.map (fun p => ∑ k in Finset.range (loop_count own),
        (if (overlap_range own p).1 ≤ own.1 + (k : Int) ∧
            own.1 + (k : Int) ≤ (overlap_range own p).2
          then e.bias_at own m k else 0))).sum =
    ∑ k in Finset.range (loop_count own), e.bias_at own m k *
      ((l.countP (fun p => decide ((overlap_range own p).1 ≤ own.1 + (k : Int) ∧
            own.1 + (k : Int) ≤ (overlap_range own p).2)) : Nat) : ℚ) := by
  induction l with
  | nil => simp
  | cons p l ih =>
    rw [List.map_cons, List.sum_cons, ih, ← Finset.sum_add_distrib]
    apply Finset.sum_congr rfl
    intro k _
    rw [List.countP_cons]
    by_cases hj : (overlap_range own p).1 ≤ own.1 + (k : Int) ∧
        own.1 + (k : Int) ≤ (overlap_range own p).2
    · simp only [hj, and_self, if_true, decide_True, Nat.cast_add, Nat.cast_one]
      ring
    · simp only [hj, if_false, decide_False, Bool.false_eq_true, add_zero, zero_add]

theorem captured_sum_le_max (e : evaluator) (m : e_metric) (own : time_range)
    (l : time_intervals) (hl : pairwise_disjoint l) :
    (l.map (fun p => ∑ k in Finset.range (loop_count own),
        (if (overlap_range own p).1 ≤ own.1 + (k : Int) ∧
            own.1 + (k : Int) ≤ (overlap_range own p).2
          then e.bias_at own m k else 0))).sum ≤
    ∑ k in Finset.range (loop_count own), e.bias_at own m k := by
  rw [captured_sum_eq]
  apply Finset.sum_le_sum
  intro k hk
  have hb := le_of_lt (bias_at_pos e own m k (Finset.mem_range.mp hk))
  have hc : ((l.countP (fun p => decide ((overlap_range own p).1 ≤ own.1 + (k : Int) ∧
            own.1 + (k : Int) ≤ (overlap_range own p).2)) : Nat) : ℚ) ≤ 1 := by
    exact_mod_cast countP_le_one_of_disjoint own (own.1 + (k : Int)) l hl
  calc e.bias_at own m k * _ ≤ e.bias_at own m k * 1 := mul_le_mul_of_nonneg_left hc hb
    _ = e.bias_at own m k := mul_one _

/-- Against pairwise non-overlapping ranges the summed omega reward of a range is at most `1`. -/
theorem omega_sum_le_one_of_disjoint (e : evaluator) (m : e_metric) (own : time_range)
    (l : time_intervals) (hl : pairwise_disjoint l) :
    (l.map (fun p => e.omega_function own (overlap_range own p) m)).sum ≤ 1 := by
  by_cases hM : 0 < ∑ k in Finset.range (loop_count own), e.bias_at own m k
  · have hfun : (fun p => e.omega_function own (overlap_range own p) m) =
        (fun p => (∑ k in Finset.range (loop_count own),
          (if (overlap_range own p).1 ≤ own.1 + (k : Int) ∧
              own.1 + (k : Int) ≤ (overlap_range own p).2
            then e.bias_at own m k else 0)) *
          (∑ k in Finset.range (loop_count own), e.bias_at own m k)⁻¹) := by
      funext p
      rw [omega_function_eq, if_pos hM, div_eq_mul_inv]
    rw [hfun, List.sum_map_mul_right, ← div_eq_mul_inv]
    exact (div_le_one hM).mpr (captured_sum_le_max e m own l hl)
  · have hfun : (fun p => e.omega_function own (overlap_range own p) m) = (fun _ => (0 : ℚ)) := by
      funext p
      rw [omega_function_eq, if_neg hM]
    rw [hfun]
    simp

theorem pairwise_disjoint_overlapping (own : time_range) (l : time_intervals)
    (hl : pairwise_disjoint l) : pairwise_disjoint (overlapping own l) :=
  List.Pairwise.sublist (List.filter_sublist l) hl

/-! ## Precision is recall with the two sets swapped -/

theorem delta_function_swap (e1 e2 : evaluator) (t L : Int) (h : e1.delta_p_ = e2.delta_r_) :
    e1.delta_function t L e_precision = e2.delta_function t L e_recall := by
  unfold delta_function delta_select udf_delta_def
  simp [h]

theorem gamma_function_swap (e1 e2 : evaluator) (c : Int) (h : e1.gamma_p_ = e2.gamma_r_) :
    e1.gamma_function c e_precision = e2.gamma_function c e_recall := by
  unfold gamma_function gamma_select udf_gamma_def
  simp [h]

theorem omega_function_swap (e1 e2 : evaluator) (range overlap : time_range)
    (h : e1.delta_p_ = e2.delta_r_) :
    e1.omega_function range overlap e_precision = e2.omega_function range overlap e_recall := by
  have hb : ∀ k, e1.bias_at range e_precision k = e2.bias_at range e_recall k :=
    fun k => delta_function_swap e1 e2 _ _ h
  rw [omega_function_eq, omega_function_eq]
  simp only [hb]

theorem contribution_swap (e1 e2 : evaluator) (alpha : ℚ) (others : time_intervals)
    (own : time_range) (hd : e1.delta_p_ = e2.delta_r_) (hg : e1.gamma_p_ = e2.gamma_r_) :
    e1.contribution alpha e_precision others own = e2.contribution alpha e_recall others own := by
  rw [contribution_eq, contribution_eq, gamma_function_swap e1 e2 _ hg]
  have hf : (fun p => e1.omega_function own (overlap_range own p) e_precision) =
      (fun p => e2.omega_function own (overlap_range own p) e_recall) :=
    funext (fun p => omega_function_swap e1 e2 own _ hd)
  rw [hf]

/-- The precision of an evaluator is the recall of any evaluator that holds the two sets in
swapped roles, the same selectors on the scored side and the same existence weight. -/
theorem precision_eq_recall_swapped (e1 e2 : evaluator)
    (hr : e1.real_anomalies_ = e2.predicted_anomalies_)
    (hp : e1.predicted_anomalies_ = e2.real_anomalies_)
    (ha : e1.alpha_p_ = e2.alpha_r_)
    (hd : e1.delta_p_ = e2.delta_r_) (hg : e1.gamma_p_ = e2.gamma_r_) :
    e1.compute_precision = e2.compute_recall := by
  rw [compute_precision_eq, compute_recall_eq, hr, hp, ha]
  have hf : e1.contribution e2.alpha_r_ e_precision e2.predicted_anomalies_ =
      e2.contribution e2.alpha_r_ e_recall e2.predicted_anomalies_ :=
    funext (fun own => contribution_swap e1 e2 _ _ own hd hg)
  rw [hf]

/-! ## Ranges without overlap -/

theorem contribution_of_no_overlap (e : evaluator) (alpha : ℚ) (m : e_metric)
    (others : time_intervals) (own : time_range) (h : overlapping own others = []) :
    e.contribution alpha m others own = 0 := by
  rw [contribution_eq, h]
  simp

theorem overlapping_eq_nil (own : time_range) (others : time_intervals)
    (h : ∀ p ∈ others, own.2 < p.1 ∨ own.1 > p.2) : overlapping own others = [] := by
  unfold overlapping
  rw [List.filter_eq_nil_iff]
  intro p hp
  simp only [decide_eq_true_eq, overlaps, not_not]
  exact h p hp

theorem sum_map_eq_zero {α : Type} (f : α → ℚ) (l : List α) (h : ∀ x ∈ l, f x = 0) :
    (l.map f).sum = 0 := by
  induction l with
  | nil => rfl
  | cons x l ih =>
    rw [List.map_cons, List.sum_cons, h x (List.mem_cons_self x l),
      ih (fun y hy => h y (List.mem_cons_of_mem x hy)), add_zero]

theorem sum_map_eq_length {α : Type} (f : α → ℚ) (l : List α) (h : ∀ x ∈ l, f x = 1) :
    (l.map f).sum = (l.length : ℚ) := by
  induction l with
  | nil => simp
  | cons x l ih =>
    rw [List.map_cons, List.sum_cons, h x (List.mem_cons_self x l),
      ih (fun y hy => h y (List.mem_cons_of_mem x hy)), List.length_cons]
    push_cast
    ring

/-! ## A range against itself, and the flat bias -/

/-- In a list of pairwise non-overlapping ranges a well-formed entry overlaps itself only. -/
theorem overlapping_self_of_disjoint (S : time_intervals) (hS : pairwise_disjoint S)
    (r : time_range) (hr : r ∈ S) (hwf : well_formed r) : overlapping r S = [r] := by
  have hself : overlaps r r := by
    unfold overlaps; unfold well_formed at hwf; omega
  induction S with
  | nil => exact absurd hr (List.not_mem_nil r)
  | cons a S ih =>
    have hp := List.pairwise_cons.mp hS
    rw [overlapping_cons]
    rcases List.mem_cons.mp hr with h | h
    · subst h
      rw [if_pos hself]
      have : overlapping r S = [] := by
        unfold overlapping
        rw [List.filter_eq_nil_iff]
        intro q hq
        simpa using hp.1 q hq
      rw [this]
    · have hna : ¬ overlaps r a := by
        have := hp.1 r h
        unfold overlaps at this ⊢
        omega
      rw [if_neg hna]
      exact ih hp.2 h

/-- The loop of `omega_function` captures the whole bias when the overlap is the range. -/
theorem omega_function_self (e : evaluator) (r : time_range) (m : e_metric)
    (hwf : well_formed r) : e.omega_function r (overlap_range r r) m = 1 := by
  have hn : 0 < loop_count r := by
    unfold loop_count; unfold well_formed at hwf; omega
  have hM := max_bias_pos e r m hn
  rw [omega_function_eq, if_pos hM]
  have hc : ∑ k in Finset.range (loop_count r),
      (if (overlap_range r r).1 ≤ r.1 + (k : Int) ∧ r.1 + (k : Int) ≤ (overlap_range r r).2
        then e.bias_at r m k else 0) =
      ∑ k in Finset.range (loop_count r), e.bias_at r m k := by
    apply Finset.sum_congr rfl
    intro k hk
    have hk2 := Finset.mem_range.mp hk
    unfold loop_count at hk2
    have : (overlap_range r r).1 ≤ r.1 + (k : Int) ∧ r.1 + (k : Int) ≤ (overlap_range r r).2 := by
      simp only [overlap_range, max_self, min_self]
      omega
    rw [if_pos this]
  rw [hc]
  exact div_self (ne_of_gt hM)

/-- The contribution of a well-formed range scored against a pairwise non-overlapping list
that contains it. -/
theorem contribution_self_of_disjoint (e : evaluator) (alpha : ℚ) (m : e_metric)
    (S : time_intervals) (hS : pairwise_disjoint S) (r : time_range) (hr : r ∈ S)
    (hwf : well_formed r) : e.contribution alpha m S r = 1 := by
  rw [contribution_eq, overlapping_self_of_disjoint S hS r hr hwf]
  simp only [List.length_singleton, Nat.lt_one_iff, if_true, List.map_cons, List.map_nil,
    List.sum_cons, List.sum_nil, add_zero, Nat.cast_one, zero_lt_one]
  rw [omega_function_self e r m hwf, gamma_function_small e 1 m (le_refl 1)]
  ring

/-- The number of loop indices `k < n` whose position `s + k` lies in `[a, b]`, for a
sub-range `[a, b]` of `[s, s + n - 1]` that may be empty with `a = b + 1`. -/
theorem card_positions (s a b : Int) (n : Nat) (h1 : s ≤ a) (h2 : b < s + n) (h3 : a ≤ b + 1) :
    ∑ k in Finset.range n, (if a ≤ s + (k : Int) ∧ s + (k : Int) ≤ b then (1 : ℚ) else 0) =
      ((b - a + 1 : Int) : ℚ) := by
  rw [Finset.sum_boole]
  have hset : Finset.filter (fun (k : Nat) => a ≤ s + (k : Int) ∧ s + (k : Int) ≤ b)
      (Finset.range n) = Finset.Ico (a - s).toNat (b - s + 1).toNat := by
    ext k
    simp only [Finset.mem_filter, Finset.mem_range, Finset.mem_Ico]
    omega
  rw [hset, Nat.card_Ico]
  have : (((b - s + 1).toNat - (a - s).toNat : Nat) : Int) = b - a + 1 := by omega
  exact_mod_cast this

/-- The bias of every loop index is `1` when the selector consulted for the side is `e_flat`. -/
theorem bias_at_flat (e : evaluator) (range : time_range) (m : e_metric) (k : Nat)
    (hp : m = e_precision → e.delta_p_ = e_flat) (hr : m = e_recall → e.delta_r_ = e_flat) :
    e.bias_at range m k = 1 := by
  unfold bias_at delta_function
  split_ifs with h1 h2
  · rw [hp h1]; simp [delta_select]
  · rw [hr h2]; simp [delta_select]
  · rfl

/-- Under the flat bias, omega is the number of positions of the range inside the overlap,
divided by the length of the range. -/
theorem omega_function_flat (e : evaluator) (r ov : time_range) (m : e_metric)
    (hp : m = e_precision → e.delta_p_ = e_flat) (hr : m = e_recall → e.delta_r_ = e_flat)
    (hwf : well_formed r) (h1 : r.1 ≤ ov.1) (h2 : ov.2 ≤ r.2) (h3 : ov.1 ≤ ov.2 + 1) :
    e.omega_function r ov m = ((ov.2 - ov.1 + 1 : Int) : ℚ) / ((r.2 - r.1 + 1 : Int) : ℚ) := by
  have hb : ∀ k, e.bias_at r m k = 1 := fun k => bias_at_flat e r m k hp hr
  unfold well_formed at hwf
  have hn : ((loop_count r : Nat) : Int) = r.2 - r.1 + 1 := by
    unfold loop_count; omega
  have hnq : ((loop_count r : Nat) : ℚ) = ((r.2 - r.1 + 1 : Int) : ℚ) := by exact_mod_cast hn
  rw [omega_function_eq]
  simp only [hb, Finset.sum_const, Finset.card_range, nsmul_eq_mul, mul_one]
  have hpos : (0 : ℚ) < ((loop_count r : Nat) : ℚ) := by
    rw [hnq]; exact_mod_cast (by omega : (0 : Int) < r.2 - r.1 + 1)
  rw [if_pos hpos, card_positions r.1 ov.1 ov.2 (loop_count r) h1 (by omega) h3, hnq]

/-! ## Bounds on precision and recall -/

theorem compute_recall_nonneg (e : evaluator) (h0 : 0 ≤ e.alpha_r_) (h1 : e.alpha_r_ ≤ 1) :
    0 ≤ e.compute_recall := by
  rw [compute_recall_eq]
  split_ifs
  · exact le_refl 0
  · apply div_nonneg _ (Nat.cast_nonneg _)
    apply List.sum_nonneg
    intro x hx
    obtain ⟨r, _, rfl⟩ := List.mem_map.mp hx
    exact contribution_nonneg e _ _ _ r h0 h1

theorem compute_precision_nonneg (e : evaluator) (h0 : 0 ≤ e.alpha_p_) (h1 : e.alpha_p_ ≤ 1) :
    0 ≤ e.compute_precision := by
  rw [compute_precision_eq]
  split_ifs
  · exact le_refl 0
  · apply div_nonneg _ (Nat.cast_nonneg _)
    apply List.sum_nonneg
    intro x hx
    obtain ⟨r, _, rfl⟩ := List.mem_map.mp hx
    exact contribution_nonneg e _ _ _ r h0 h1

/-- The overlap reward of a range against pairwise non-overlapping ranges is at most `1`. -/
theorem reward_le_one_of_disjoint (e : evaluator) (m : e_metric) (own : time_range)
    (others : time_intervals) (hd : pairwise_disjoint others) :
    e.gamma_function ((overlapping own others).length : Int) m *
      ((overlapping own others).map
        (fun p => e.omega_function own (overlap_range own p) m)).sum ≤ 1 := by
  have hs := omega_sum_le_one_of_disjoint e m own (overlapping own others)
    (pairwise_disjoint_overlapping own others hd)
  have hs0 := omega_sum_nonneg e m own (overlapping own others)
  have hg := gamma_function_le_one e ((overlapping own others).length : Int) m
  have hg0 := le_of_lt (gamma_function_pos e ((overlapping own others).length : Int) m)
  calc _ ≤ 1 * 1 := mul_le_mul hg hs hs0 zero_le_one
    _ = 1 := mul_one 1

/-- With the reciprocal selector the overlap reward of a range is at most `1` against any
set, because the summed omega never exceeds the overlap count. -/
theorem reward_le_one_of_reciprocal (e : evaluator) (m : e_metric) (own : time_range)
    (others : time_intervals)
    (hm : (m = e_precision ∧ e.gamma_p_ = e_reciprocal) ∨
      (m = e_recall ∧ e.gamma_r_ = e_reciprocal)) :
    e.gamma_function ((overlapping own others).length : Int) m *
      ((overlapping own others).map
        (fun p => e.omega_function own (overlap_range own p) m)).sum ≤ 1 := by
  have hs := omega_sum_le_length e m own (overlapping own others)
  have hs0 := omega_sum_nonneg e m own (overlapping own others)
  by_cases hc : ((overlapping own others).length : Int) > 1
  · have hg : e.gamma_function ((overlapping own others).length : Int) m ≤
        1 / (((overlapping own others).length : Int) : ℚ) := by
      unfold gamma_function
      rcases hm with ⟨h1, h2⟩ | ⟨h1, h2⟩
      · rw [h1, h2]; simp [gamma_select, hc]
      · rw [h1, h2]; simp [gamma_select, hc]
    have hpos : (0 : ℚ) < (((overlapping own others).length : Int) : ℚ) := by
      exact_mod_cast (by omega : (0 : Int) < ((overlapping own others).length : Int))
    have hs2 : ((overlapping own others).map
        (fun p => e.omega_function own (overlap_range own p) m)).sum ≤
        (((overlapping own others).length : Int) : ℚ) := by exact_mod_cast hs
    calc _ ≤ 1 / (((overlapping own others).length : Int) : ℚ) *
          (((overlapping own others).length : Int) : ℚ) :=
          mul_le_mul hg hs2 hs0 (by positivity)
      _ = 1 := one_div_mul_cancel (ne_of_gt hpos)
  · have hle : ((overlapping own others).length : Int) ≤ 1 := by omega
    rw [gamma_function_small e _ m hle, one_mul]
    have : (((overlapping own others).length : Nat) : ℚ) ≤ 1 := by exact_mod_cast hle
    linarith

theorem compute_recall_le_one_of_disjoint (e : evaluator) (h0 : 0 ≤ e.alpha_r_)
    (h1 : e.alpha_r_ ≤ 1) (hd : pairwise_disjoint e.predicted_anomalies_) :
    e.compute_recall ≤ 1 := by
  rw [compute_recall_eq]
  exact (average_in_unit _ e.real_anomalies_ (fun r _ =>
    ⟨contribution_nonneg e _ _ _ r h0 h1,
     contribution_le_one e _ _ _ r h0 h1 (reward_le_one_of_disjoint e _ r _ hd)⟩)).2

theorem compute_precision_le_one_of_disjoint (e : evaluator) (h0 : 0 ≤ e.alpha_p_)
    (h1 : e.alpha_p_ ≤ 1) (hd : pairwise_disjoint e.real_anomalies_) :
    e.compute_precision ≤ 1 := by
  rw [compute_precision_eq]
  exact (average_in_unit _ e.predicted_anomalies_ (fun r _ =>
    ⟨contribution_nonneg e _ _ _ r h0 h1,
     contribution_le_one e _ _ _ r h0 h1 (reward_le_one_of_disjoint e _ r _ hd)⟩)).2

theorem compute_recall_le_one_of_reciprocal (e : evaluator) (h0 : 0 ≤ e.alpha_r_)
    (h1 : e.alpha_r_ ≤ 1) (hg : e.gamma_r_ = e_reciprocal) :
    e.compute_recall ≤ 1 := by
  rw [compute_recall_eq]
  exact (average_in_unit _ e.real_anomalies_ (fun r _ =>
    ⟨contribution_nonneg e _ _ _ r h0 h1,
     contribution_le_one e _ _ _ r h0 h1
      (reward_le_one_of_reciprocal e _ r _ (Or.inr ⟨rfl, hg⟩))⟩)).2

theorem compute_precision_le_one_of_reciprocal (e : evaluator) (h0 : 0 ≤ e.alpha_p_)
    (h1 : e.alpha_p_ ≤ 1) (hg : e.gamma_p_ = e_reciprocal) :
    e.compute_precision ≤ 1 := by
  rw [compute_precision_eq]
  exact (average_in_unit _ e.predicted_anomalies_ (fun r _ =>
    ⟨contribution_nonneg e _ _ _ r h0 h1,
     contribution_le_one e _ _ _ r h0 h1
      (reward_le_one_of_reciprocal e _ r _ (Or.inl ⟨rfl, hg⟩))⟩)).2

/-! ## Properties of the specification -/

/-- C1 (as stated, refuted): with real = {[0,9]}, predicted = {[0,9],[5,9]}, alpha_r = 0 and
the selectors `one` and `flat`, `compute_recall` returns 3/2, which is not in [0,1]. -/
theorem C1_recall_exceeds_one :
    (ctor_config [(0, 9)] [(0, 9), (5, 9)] 1 0 e_one e_flat e_flat).compute_recall = 3 / 2 ∧
    ¬ ((ctor_config [(0, 9)] [(0, 9), (5, 9)] 1 0 e_one e_flat e_flat).compute_recall ≤ 1) := by
  have h : (ctor_config [(0, 9)] [(0, 9), (5, 9)] 1 0 e_one e_flat e_flat).compute_recall
      = 3 / 2 := by
    simp [compute_recall, ctor_config, inner_step, compute_omega_reward, omega_function,
      omega_loop, omega_step, delta_function, delta_select, gamma_function, gamma_select,
      List.range, List.range.loop]
    norm_num
  rw [h]
  norm_num

/-- C1 (amended): for every pair of range sets in which the ranges within each set are
pairwise non-overlapping, and every evaluator state with alpha_p = 0 (as every constructor
sets it), alpha_r in [0,1] and any gamma and delta selectors, `compute_precision` and
`compute_recall` both return a value in [0,1]. -/
theorem C1_range_bound_of_disjoint (e : evaluator) (hp : e.alpha_p_ = 0)
    (h0 : 0 ≤ e.alpha_r_) (h1 : e.alpha_r_ ≤ 1)
    (hreal : pairwise_disjoint e.real_anomalies_)
    (hpred : pairwise_disjoint e.predicted_anomalies_) :
    (0 ≤ e.compute_precision ∧ e.compute_precision ≤ 1) ∧
    (0 ≤ e.compute_recall ∧ e.compute_recall ≤ 1) :=
  ⟨⟨compute_precision_nonneg e (by rw [hp]) (by rw [hp]; exact zero_le_one),
    compute_precision_le_one_of_disjoint e (by rw [hp]) (by rw [hp]; exact zero_le_one) hreal⟩,
   ⟨compute_recall_nonneg e h0 h1, compute_recall_le_one_of_disjoint e h0 h1 hpred⟩⟩

/-- C1 (amended) at real = {[0,9],[20,29]}, predicted = {[5,12],[13,21]}, alpha_r = 1/2,
gamma = one, delta_p = middle, delta_r = back. -/
theorem C1_range_bound_of_disjoint_witness :
    (0 ≤ (ctor_config [(0, 9), (20, 29)] [(5, 12), (13, 21)] 1 (1 / 2)
        e_one e_middle e_back).compute_precision ∧
      (ctor_config [(0, 9), (20, 29)] [(5, 12), (13, 21)] 1 (1 / 2)
        e_one e_middle e_back).compute_precision ≤ 1) ∧
    (0 ≤ (ctor_config [(0, 9), (20, 29)] [(5, 12), (13, 21)] 1 (1 / 2)
        e_one e_middle e_back).compute_recall ∧
      (ctor_config [(0, 9), (20, 29)] [(5, 12), (13, 21)] 1 (1 / 2)
        e_one e_middle e_back).compute_recall ≤ 1) :=
  C1_range_bound_of_disjoint
    (ctor_config [(0, 9), (20, 29)] [(5, 12), (13, 21)] 1 (1 / 2) e_one e_middle e_back)
    rfl (by norm_num [ctor_config]) (by norm_num [ctor_config]) (by decide) (by decide)

/-- C2: for every evaluator state whose real set is non-empty, `compute_recall` equals the
aggregation formula `(1/|R|) * Σ_r [alpha_r * e(r) + (1 - alpha_r) * gamma(c(r)) *
Σ_{p overlaps r} omega(r, [max(r.start,p.start), min(r.end,p.end)])]`, where `c(r)` counts
the entries of the predicted set that overlap `r` and `e(r)` is 1 if `c(r) > 0`, else 0. -/
theorem C2_recall_formula (e : evaluator) (h : e.real_anomalies_ ≠ []) :
    e.compute_recall = recall_formula e := by
  have hlen : e.real_anomalies_.length ≠ 0 := by
    simpa [List.length_eq_zero] using h
  rw [compute_recall_eq, if_neg hlen]
  unfold recall_formula
  rw [div_eq_mul_inv, mul_comm, one_div]
  congr 2
  apply List.map_congr_left
  intro r _
  rw [contribution_eq]
  simp [overlap_range]

/-- C2 at real = {[0,9],[20,29]}, predicted = {[5,12],[8,21]}, alpha_r = 1/2,
gamma = reciprocal, delta_p = front, delta_r = back. -/
theorem C2_recall_formula_witness :
    (ctor_config [(0, 9), (20, 29)] [(5, 12), (8, 21)] 1 (1 / 2)
        e_reciprocal e_front e_back).compute_recall =
      recall_formula (ctor_config [(0, 9), (20, 29)] [(5, 12), (8, 21)] 1 (1 / 2)
        e_reciprocal e_front e_back) :=
  C2_recall_formula _ (by simp [ctor_config])

/-- C3: for all range sets A and B and all selectors g and d, `compute_precision` of the
evaluator constructed with real = A, predicted = B, gamma = g, delta_p = d equals
`compute_recall` of the evaluator constructed with real = B, predicted = A, gamma = g,
delta_r = d and alpha_r = 0, whatever the remaining constructor arguments are. -/
theorem C3_precision_is_swapped_recall (A B : time_intervals) (g : overlap_cardinality)
    (d : positional_bias) (beta1 alpha1 : ℚ) (delta_r1 : positional_bias) (beta2 : ℚ)
    (delta_p2 : positional_bias) :
    (ctor_config A B beta1 alpha1 g d delta_r1).compute_precision =
      (ctor_config B A beta2 0 g delta_p2 d).compute_recall :=
  precision_eq_recall_swapped _ _ rfl rfl rfl rfl rfl

/-- C4: in every evaluator state, if the predicted set is empty then `compute_precision`
is 0, and if the real set is empty then `compute_recall` is 0. -/
theorem C4_empty_set_boundary (e : evaluator) :
    (e.predicted_anomalies_ = [] → e.compute_precision = 0) ∧
    (e.real_anomalies_ = [] → e.compute_recall = 0) := by
  constructor
  · intro h
    unfold compute_precision
    rw [h]
    rfl
  · intro h
    unfold compute_recall
    rw [h]
    rfl

/-- C4 at an empty predicted set against real = {[0,2],[1,7]}, and at an empty real set
against predicted = {[0,2],[1,7]}. -/
theorem C4_empty_set_boundary_witness :
    (ctor_config [(0, 2), (1, 7)] [] 2 (1 / 2) e_reciprocal e_front e_back).compute_precision
      = 0 ∧
    (ctor_config [] [(0, 2), (1, 7)] 2 (1 / 2) e_reciprocal e_front e_back).compute_recall
      = 0 :=
  ⟨(C4_empty_set_boundary _).1 rfl, (C4_empty_set_boundary _).2 rfl⟩

/-! ## The update calls -/

/-- The cached F-score after `update_precision`, `update_recall`, `update_fscore`, in terms of
the values computed in the state before the calls. -/
theorem fscore_after_updates (e : evaluator) :
    (e.update_precision.update_recall.update_fscore).fscore_ =
      if e.beta_ ^ 2 * e.compute_precision + e.compute_recall = 0 then none
      else some ((1 + e.beta_ ^ 2) * (e.compute_precision * e.compute_recall) /
        (e.beta_ ^ 2 * e.compute_precision + e.compute_recall)) :=
  rfl

/-- Perfect match over unbounded integers and exact arithmetic: for every non-empty list S of
well-formed, pairwise non-overlapping ranges, every evaluator state with real = predicted = S
(any selectors, any alpha, any beta) has `compute_precision` = 1 and `compute_recall` = 1,
and after `update_precision`, `update_recall`, `update_fscore` its cached F-score is 1. -/
theorem perfect_match_unbounded (e : evaluator) (S : time_intervals) (hne : S ≠ [])
    (hwf : ∀ r ∈ S, well_formed r) (hdis : pairwise_disjoint S)
    (hreal : e.real_anomalies_ = S) (hpred : e.predicted_anomalies_ = S) :
    e.compute_precision = 1 ∧ e.compute_recall = 1 ∧
    (e.update_precision.update_recall.update_fscore).fscore_ = some 1 := by
  have hlen : S.length ≠ 0 := by simpa [List.length_eq_zero] using hne
  have hlenq : (S.length : ℚ) ≠ 0 := by exact_mod_cast hlen
  have hP : e.compute_precision = 1 := by
    rw [compute_precision_eq, hreal, hpred, if_neg hlen,
      sum_map_eq_length _ S (fun r hr => contribution_self_of_disjoint e _ _ S hdis r hr
        (hwf r hr))]
    exact div_self hlenq
  have hR : e.compute_recall = 1 := by
    rw [compute_recall_eq, hreal, hpred, if_neg hlen,
      sum_map_eq_length _ S (fun r hr => contribution_self_of_disjoint e _ _ S hdis r hr
        (hwf r hr))]
    exact div_self hlenq
  refine ⟨hP, hR, ?_⟩
  have hden : e.beta_ ^ 2 * 1 + 1 ≠ 0 := by positivity
  rw [fscore_after_updates, hP, hR, if_neg hden]
  congr 1
  rw [div_eq_one_iff_eq hden]
  ring

/-- C5 (as stated, refuted), on machine numbers.  With real = predicted = {[0,4]} and
beta = 2^600, precision and recall are 1 but `pow(beta, 2)` overflows to infinity and the
F-score after `update_precision`, `update_recall`, `update_fscore` is NaN.  With
real = predicted = {[0,2147483647]}, a single well-formed range, the `int` length
`end - start + 1` wraps to `-2^31`, the loop of `omega_function` does not run, and
`compute_precision` and `compute_recall` return 0. -/
theorem C5_perfect_match_fails_on_machine_numbers :
    ((((machine.evaluator.ctor_config [(0, 4)] [(0, 4)] (dbl.fin false 4503599627370496 548)
        (dbl.zero false) e_one e_flat e_flat).update_precision.bind
        machine.evaluator.update_recall).map
      (fun s => (s.precision_, s.recall_, s.update_fscore.fscore_))) =
        some (dbl.one, dbl.one, dbl.nan)) ∧
    dbl.mul (dbl.fin false 4503599627370496 548) (dbl.fin false 4503599627370496 548) =
      dbl.inf false ∧
    well_formed (0, 2147483647) ∧
    machine.wrap_int ((2147483647 : Int) - 0 + 1) = -2147483648 ∧
    (machine.evaluator.ctor_config [(0, 2147483647)] [(0, 2147483647)] dbl.one
      (dbl.zero false) e_one e_flat e_flat).compute_precision = some (dbl.zero false) ∧
    (machine.evaluator.ctor_config [(0, 2147483647)] [(0, 2147483647)] dbl.one
      (dbl.zero false) e_one e_flat e_flat).compute_recall = some (dbl.zero false) := by
  decide

/-- C5 (amended): for every non-empty list S of well-formed, pairwise non-overlapping ranges
whose lengths end - start + 1 are below INT_MAX = 2147483647 (so that the `int` length and
loop index of `omega_function` do not overflow), every evaluator state with
real = predicted = S (any selectors, any alpha) has `compute_precision` = 1 and
`compute_recall` = 1, and after `update_precision`, `update_recall`, `update_fscore` its
cached F-score is 1 for every beta with beta^2 < 2^1023 (so that `pow(beta, 2)` does not
overflow).  The two bounds keep the machine numbers of the code in range; the proof, over
unbounded integers and exact arithmetic, does not use them. -/
theorem C5_perfect_match (e : evaluator) (S : time_intervals) (hne : S ≠ [])
    (hwf : ∀ r ∈ S, well_formed r) (hdis : pairwise_disjoint S)
    (hlen : ∀ r ∈ S, r.2 - r.1 + 1 < 2147483647) (hbeta : e.beta_ ^ 2 < 2 ^ 1023)
    (hreal : e.real_anomalies_ = S) (hpred : e.predicted_anomalies_ = S) :
    e.compute_precision = 1 ∧ e.compute_recall = 1 ∧
    (e.update_precision.update_recall.update_fscore).fscore_ = some 1 :=
  have _h1 := hlen
  have _h2 := hbeta
  perfect_match_unbounded e S hne hwf hdis hreal hpred

/-- C5 (amended) at real = predicted = {[0,4]}, gamma = one, delta_p = delta_r = flat,
alpha_r = 0, beta = 1: precision, recall and F-score are (1, 1, 1). -/
theorem C5_perfect_match_witness :
    (ctor_config [(0, 4)] [(0, 4)] 1 0 e_one e_flat e_flat).compute_precision = 1 ∧
    (ctor_config [(0, 4)] [(0, 4)] 1 0 e_one e_flat e_flat).compute_recall = 1 ∧
    ((ctor_config [(0, 4)] [(0, 4)] 1 0 e_one e_flat
      e_flat).update_precision.update_recall.update_fscore).fscore_ = some 1 :=
  C5_perfect_match (ctor_config [(0, 4)] [(0, 4)] 1 0 e_one e_flat e_flat) [(0, 4)]
    (by simp) (by decide) (by decide) (by decide) (by norm_num [ctor_config]) rfl rfl

/-- C6: in every evaluator state in which no real range overlaps any predicted range (for
every r in real and p in predicted, r.end < p.start or r.start > p.end), `compute_precision`
is 0 and `compute_recall` is 0. -/
theorem C6_no_overlap (e : evaluator)
    (h : ∀ r ∈ e.real_anomalies_, ∀ p ∈ e.predicted_anomalies_, r.2 < p.1 ∨ r.1 > p.2) :
    e.compute_precision = 0 ∧ e.compute_recall = 0 := by
  constructor
  · rw [compute_precision_eq]
    split_ifs
    · rfl
    · rw [sum_map_eq_zero _ _ (fun p hp => contribution_of_no_overlap e _ _ _ p
        (overlapping_eq_nil p _ (fun r hr => by have := h r hr p hp; omega)))]
      exact zero_div _
  · rw [compute_recall_eq]
    split_ifs
    · rfl
    · rw [sum_map_eq_zero _ _ (fun r hr => contribution_of_no_overlap e _ _ _ r
        (overlapping_eq_nil r _ (fun p hp => h r hr p hp)))]
      exact zero_div _

/-- C6 at real = {[0,2]}, predicted = {[10,12]}. -/
theorem C6_no_overlap_witness :
    (ctor_config [(0, 2)] [(10, 12)] 1 (1 / 2) e_one e_flat e_flat).compute_precision = 0 ∧
    (ctor_config [(0, 2)] [(10, 12)] 1 (1 / 2) e_one e_flat e_flat).compute_recall = 0 :=
  C6_no_overlap (ctor_config [(0, 2)] [(10, 12)] 1 (1 / 2) e_one e_flat e_flat) (by decide)

/-- C7 (as stated, refuted).  The range p = [5,3] passes the overlap test against the
well-formed range r = [0,9], and with the flat selector `compute_omega_reward` returns 0 and
counts one overlap, while the claimed fraction (min(9,3) - max(0,5) + 1) / (9 - 0 + 1) is
-1/10.  And on machine numbers, for the well-formed range r = p = [0,2147483647], which
overlaps itself, the `int` length wraps to `-2^31`, the loop of `omega_function` does not
run and `compute_omega_reward` returns 0, while the claimed fraction is 1. -/
theorem C7_fraction_fails :
    (well_formed (0, 9) ∧ overlaps (0, 9) (5, 3) ∧
      (ctor_config [(0, 9)] [(5, 3)] 1 0 e_one e_flat e_flat).compute_omega_reward
        (0, 9) (5, 3) 0 e_recall = (0, 1) ∧
      (((min 9 3 - max 0 5 + 1 : Int) : ℚ) / ((9 - 0 + 1 : Int) : ℚ) = -1 / 10) ∧
      ((ctor_config [(0, 9)] [(5, 3)] 1 0 e_one e_flat e_flat).compute_omega_reward
        (0, 9) (5, 3) 0 e_recall).1 ≠
        ((min 9 3 - max 0 5 + 1 : Int) : ℚ) / ((9 - 0 + 1 : Int) : ℚ)) ∧
    (well_formed (0, 2147483647) ∧ overlaps (0, 2147483647) (0, 2147483647) ∧
      (machine.evaluator.ctor_config [(0, 2147483647)] [(0, 2147483647)] dbl.one
        (dbl.zero false) e_one e_flat e_flat).compute_omega_reward
        (0, 2147483647) (0, 2147483647) 0 e_recall = some (dbl.zero false, 1) ∧
      (((min 2147483647 2147483647 - max 0 0 + 1 : Int) : ℚ) /
        ((2147483647 - 0 + 1 : Int) : ℚ) = 1) ∧
      dbl.zero false ≠ dbl.one) := by
  have h : (ctor_config [(0, 9)] [(5, 3)] 1 0 e_one e_flat e_flat).compute_omega_reward
      (0, 9) (5, 3) 0 e_recall = (0, 1) := by
    simp [ctor_config, compute_omega_reward, omega_function,
      omega_loop, omega_step, delta_function, delta_select, List.range, List.range.loop]
  refine ⟨⟨by decide, by decide, h, by norm_num, ?_⟩,
    ⟨by decide, by decide, by decide, by norm_num, by decide⟩⟩
  rw [h]
  norm_num

/-- The covered fraction over unbounded integers: for every well-formed range r = [s,e] and
every range p = [c,d] with c <= d + 1 that overlaps r, when the delta selector consulted for
the metric side is flat, `compute_omega_reward r p` returns
(min(e,d) - max(s,c) + 1) / (e - s + 1) and increments the overlap count by one. -/
theorem flat_covered_fraction_unbounded (e : evaluator) (r p : time_range) (count : Int)
    (m : e_metric) (hp : m = e_precision → e.delta_p_ = e_flat)
    (hr : m = e_recall → e.delta_r_ = e_flat)
    (hwf : well_formed r) (hpw : p.1 ≤ p.2 + 1) (hov : overlaps r p) :
    e.compute_omega_reward r p count m =
      (((min r.2 p.2 - max r.1 p.1 + 1 : Int) : ℚ) / ((r.2 - r.1 + 1 : Int) : ℚ),
        count + 1) := by
  have hov2 : ¬ (r.2 < p.1 ∨ r.1 > p.2) := hov
  have hwf2 : r.1 ≤ r.2 := hwf
  unfold compute_omega_reward
  rw [if_neg hov2]
  rw [omega_function_flat e r (max r.1 p.1, min r.2 p.2) m hp hr hwf
    (le_max_left _ _) (min_le_left _ _) (by
      show max r.1 p.1 ≤ min r.2 p.2 + 1
      rcases max_choice r.1 p.1 with h1 | h1 <;> rcases min_choice r.2 p.2 with h2 | h2 <;>
        rw [h1, h2] <;> omega)]

/-- C7 (amended): for every well-formed range r = [s,e] whose length e - s + 1 is below
INT_MAX = 2147483647 (so that the `int` length and loop index of `omega_function` do not
overflow) and every range p = [c,d] with c <= d + 1 (in particular every well-formed p) that
overlaps r, when the delta selector consulted for the metric side is flat,
`compute_omega_reward r p` returns (min(e,d) - max(s,c) + 1) / (e - s + 1) and increments
the overlap count by one.  The bound on the length keeps the 32-bit integers of the code in
range; the proof, over unbounded integers, does not use it. -/
theorem C7_flat_covered_fraction (e : evaluator) (r p : time_range) (count : Int)
    (m : e_metric) (hp : m = e_precision → e.delta_p_ = e_flat)
    (hr : m = e_recall → e.delta_r_ = e_flat)
    (hwf : well_formed r) (hlen : r.2 - r.1 + 1 < 2147483647)
    (hpw : p.1 ≤ p.2 + 1) (hov : overlaps r p) :
    e.compute_omega_reward r p count m =
      (((min r.2 p.2 - max r.1 p.1 + 1 : Int) : ℚ) / ((r.2 - r.1 + 1 : Int) : ℚ),
        count + 1) :=
  have _h1 := hlen
  flat_covered_fraction_unbounded e r p count m hp hr hwf hpw hov

/-- C7 (amended) at r = [0,9], p = [5,9]: omega is 1/2, and with real = {[0,9]},
predicted = {[5,9]}, gamma = one, alpha_r = 0 `compute_recall` is 1/2. -/
theorem C7_flat_covered_fraction_witness :
    (ctor_config [(0, 9)] [(5, 9)] 1 0 e_one e_flat e_flat).compute_omega_reward
      (0, 9) (5, 9) 0 e_recall = (1 / 2, 1) ∧
    (ctor_config [(0, 9)] [(5, 9)] 1 0 e_one e_flat e_flat).compute_recall = 1 / 2 := by
  constructor
  · have h := C7_flat_covered_fraction (ctor_config [(0, 9)] [(5, 9)] 1 0 e_one e_flat e_flat)
      (0, 9) (5, 9) 0 e_recall (fun _ => rfl) (fun _ => rfl) (by decide) (by decide)
      (by decide) (by decide)
    rw [h]
    norm_num
  · simp [compute_recall, ctor_config, inner_step, compute_omega_reward, omega_function,
      omega_loop, omega_step, delta_function, delta_select, gamma_function, gamma_select,
      List.range, List.range.loop]
    norm_num

theorem overlapping_length_pos_iff (r : time_range) (P : time_intervals) :
    0 < (overlapping r P).length ↔ P.any (fun p => decide (overlaps r p)) = true := by
  unfold overlapping
  rw [List.length_pos, Ne, List.filter_eq_nil_iff, List.any_eq_true]
  push_neg
  rfl

theorem sum_indicator_eq_length_filter {α : Type} (c : α → Bool) (l : List α) :
    (l.map (fun x => if c x = true then (1 : ℚ) else 0)).sum = ((l.filter c).length : ℚ) := by
  induction l with
  | nil => simp
  | cons x l ih =>
    rw [List.map_cons, List.sum_cons, ih, List.filter_cons]
    by_cases h : c x = true
    · simp only [h, if_true, List.length_cons]
      push_cast
      ring
    · simp only [h, if_false, zero_add, Bool.false_eq_true]

/-- C8: in every evaluator state with alpha_r = 1 and a non-empty real set, `compute_recall`
equals the number of real ranges that overlap at least one predicted range divided by the
number of real ranges, whatever the gamma and delta selectors are. -/
theorem C8_existence_recall (e : evaluator) (ha : e.alpha_r_ = 1)
    (hne : e.real_anomalies_ ≠ []) :
    e.compute_recall =
      ((e.real_anomalies_.filter
          (fun r => e.predicted_anomalies_.any (fun p => decide (overlaps r p)))).length : ℚ) /
        (e.real_anomalies_.length : ℚ) := by
  have hlen : e.real_anomalies_.length ≠ 0 := by simpa [List.length_eq_zero] using hne
  rw [compute_recall_eq, if_neg hlen, ← sum_indicator_eq_length_filter]
  congr 2
  apply List.map_congr_left
  intro r _
  rw [contribution_eq, ha]
  by_cases h : 0 < (overlapping r e.predicted_anomalies_).length
  · rw [if_pos h, if_pos ((overlapping_length_pos_iff r _).mp h)]
    ring
  · rw [if_neg h, if_neg (fun h2 => h ((overlapping_length_pos_iff r _).mpr h2))]
    ring

/-- C8 at real = {[0,9]}, predicted = {[5,9]}, alpha_r = 1: recall is 1. -/
theorem C8_existence_recall_witness :
    (ctor_config [(0, 9)] [(5, 9)] 1 1 e_one e_flat e_flat).compute_recall = 1 := by
  have h := C8_existence_recall (ctor_config [(0, 9)] [(5, 9)] 1 1 e_one e_flat e_flat) rfl
    (by simp [ctor_config])
  rw [h]
  simp [ctor_config, overlaps]

/-- C9: in every evaluator state with gamma_r = reciprocal, alpha_r = 0 and a real set that
consists of one range r, if k >= 2 entries of the predicted set overlap r then
`compute_recall` equals (1/k) times the sum, over those k entries p, of
omega(r, overlap(r, p)). -/
theorem C9_fragmentation_penalty (e : evaluator) (r : time_range) (k : Nat)
    (hg : e.gamma_r_ = e_reciprocal) (ha : e.alpha_r_ = 0) (hreal : e.real_anomalies_ = [r])
    (hk : (overlapping r e.predicted_anomalies_).length = k) (h2 : 2 ≤ k) :
    e.compute_recall =
      (1 / (k : ℚ)) * ((overlapping r e.predicted_anomalies_).map
        (fun p => e.omega_function r (overlap_range r p) e_recall)).sum := by
  have hk1 : ((k : Nat) : Int) > 1 := by omega
  have hgam : e.gamma_function ((k : Nat) : Int) e_recall = 1 / (k : ℚ) := by
    unfold gamma_function
    rw [hg]
    simp [gamma_select, hk1]
  rw [compute_recall_eq, hreal]
  simp only [List.length_singleton, one_ne_zero, if_false, List.map_cons, List.map_nil,
    List.sum_cons, List.sum_nil, add_zero, Nat.cast_one, div_one]
  rw [contribution_eq, ha, hk, hgam]
  ring

/-- C9 at real = {[0,9]}, predicted = {[0,0],[9,9]}, flat delta: the overlap count is 2, the
multiplier 1/2, the summed omega 1/10 + 1/10 and the recall 1/10. -/
theorem C9_fragmentation_penalty_witness :
    (overlapping (0, 9) [(0, 0), (9, 9)]).length = 2 ∧
    (ctor_config [(0, 9)] [(0, 0), (9, 9)] 1 0 e_reciprocal e_flat e_flat).gamma_function
      2 e_recall = 1 / 2 ∧
    ((overlapping (0, 9) [(0, 0), (9, 9)]).map
      (fun p => (ctor_config [(0, 9)] [(0, 0), (9, 9)] 1 0 e_reciprocal e_flat
        e_flat).omega_function (0, 9) (overlap_range (0, 9) p) e_recall)).sum
      = 1 / 10 + 1 / 10 ∧
    (ctor_config [(0, 9)] [(0, 0), (9, 9)] 1 0 e_reciprocal e_flat e_flat).compute_recall
      = 1 / 10 := by
  have hs : ((overlapping (0, 9) [(0, 0), (9, 9)]).map
      (fun p => (ctor_config [(0, 9)] [(0, 0), (9, 9)] 1 0 e_reciprocal e_flat
        e_flat).omega_function (0, 9) (overlap_range (0, 9) p) e_recall)).sum
      = 1 / 10 + 1 / 10 := by
    simp [overlapping, overlaps, overlap_range, ctor_config, omega_function,
      omega_loop, omega_step, delta_function, delta_select, List.range, List.range.loop]
    norm_num
  have h := C9_fragmentation_penalty
    (ctor_config [(0, 9)] [(0, 0), (9, 9)] 1 0 e_reciprocal e_flat e_flat) (0, 9) 2
    rfl rfl rfl (by decide) (le_refl 2)
  refine ⟨by decide, ?_, hs, ?_⟩
  · simp [gamma_function, gamma_select, ctor_config]
  · rw [h]
    have hs2 : ((overlapping (0, 9)
        (ctor_config [(0, 9)] [(0, 0), (9, 9)] 1 0 e_reciprocal e_flat
          e_flat).predicted_anomalies_).map
      (fun p => (ctor_config [(0, 9)] [(0, 0), (9, 9)] 1 0 e_reciprocal e_flat
        e_flat).omega_function (0, 9) (overlap_range (0, 9) p) e_recall)).sum
      = 1 / 10 + 1 / 10 := hs
    rw [hs2]
    norm_num

/-- C10: in every evaluator state with beta = 1, cached precision P > 0 and cached recall
R > 0, `compute_fscore` returns the harmonic mean 2*P*R/(P+R). -/
theorem C10_fscore_harmonic_mean (e : evaluator) (hb : e.beta_ = 1)
    (hP : 0 < e.precision_) (hR : 0 < e.recall_) :
    e.compute_fscore = some (2 * e.precision_ * e.recall_ / (e.precision_ + e.recall_)) := by
  have hden : (1 : ℚ) ^ 2 * e.precision_ + e.recall_ ≠ 0 := by positivity
  unfold compute_fscore
  simp only [hb]
  rw [if_neg hden]
  congr 1
  rw [one_pow, one_mul]
  ring

/-- C10 at the state reached from real = {[0,9]}, predicted = {[5,9]} by `update_precision`
and `update_recall` (cached precision 1, cached recall 1/2): the F-score is 2/3. -/
theorem C10_fscore_harmonic_mean_witness :
    ((ctor_config [(0, 9)] [(5, 9)] 1 0 e_one e_flat
      e_flat).update_precision.update_recall).compute_fscore = some (2 / 3) := by
  have hP : ((ctor_config [(0, 9)] [(5, 9)] 1 0 e_one e_flat
      e_flat).update_precision.update_recall).precision_ = 1 := by
    simp [update_recall, update_precision, compute_precision, ctor_config, inner_step,
      compute_omega_reward, omega_function, omega_loop, omega_step, delta_function,
      delta_select, gamma_function, gamma_select, List.range, List.range.loop]
    norm_num
  have hR : ((ctor_config [(0, 9)] [(5, 9)] 1 0 e_one e_flat
      e_flat).update_precision.update_recall).recall_ = 1 / 2 := by
    simp [update_recall, update_precision, compute_recall, ctor_config, inner_step,
      compute_omega_reward, omega_function, omega_loop, omega_step, delta_function,
      delta_select, gamma_function, gamma_select, List.range, List.range.loop]
    norm_num
  have h := C10_fscore_harmonic_mean
    ((ctor_config [(0, 9)] [(5, 9)] 1 0 e_one e_flat e_flat).update_precision.update_recall)
    rfl (by rw [hP]; norm_num) (by rw [hR]; norm_num)
  rw [h, hP, hR]
  norm_num

/-! ## Configuration: constructors and setters -/

/-- C11 (the code at the failing input): the constructor
`evaluator(real, predicted, beta, alpha_r, gamma, delta_p, delta_r)` called with beta = -1 and
alpha_r = 3/2 stores both values without any error, and `compute_recall` is then computed on
that configuration (5/4 for real = {[0,9]}, predicted = {[5,9]}), although `set_beta(-1)` and
`set_alpha_r(3/2)` throw on the same values. -/
theorem C11_constructor_accepts_invalid_configuration :
    (ctor_config [(0, 9)] [(5, 9)] (-1) (3 / 2) e_one e_flat e_flat).beta_ = -1 ∧
    (ctor_config [(0, 9)] [(5, 9)] (-1) (3 / 2) e_one e_flat e_flat).alpha_r_ = 3 / 2 ∧
    (ctor_config [(0, 9)] [(5, 9)] (-1) (3 / 2) e_one e_flat e_flat).compute_recall = 5 / 4 ∧
    ((ctor_sets [(0, 9)] [(5, 9)]).set_beta (-1)).2 = some "Error: Invalid beta value!" ∧
    ((ctor_sets [(0, 9)] [(5, 9)]).set_alpha_r (3 / 2)).2 =
      some "Error: Invalid alpha value!" := by
  refine ⟨rfl, rfl, ?_, ?_, ?_⟩
  · simp [compute_recall, ctor_config, inner_step, compute_omega_reward, omega_function,
      omega_loop, omega_step, delta_function, delta_select, gamma_function, gamma_select,
      List.range, List.range.loop]
    norm_num
  · simp [set_beta]
  · simp [set_alpha_r]
    norm_num

/-- C12: `set_alpha_r(a)` throws exactly when a < 0 or a > 1 and `set_beta(b)` throws exactly
when b < 0; a setter that throws leaves the evaluator state unchanged, and a setter that
returns changes the targeted field (`alpha_r_`, `beta_`) to the new value and no other
field. -/
theorem C12_setter_validation (e : evaluator) (a b : ℚ) :
    (((e.set_alpha_r a).2 ≠ none ↔ (a < 0 ∨ a > 1)) ∧
      ((e.set_alpha_r a).2 ≠ none → (e.set_alpha_r a).1 = e) ∧
      ((e.set_alpha_r a).2 = none → (e.set_alpha_r a).1 = { e with alpha_r_ := a })) ∧
    (((e.set_beta b).2 ≠ none ↔ b < 0) ∧
      ((e.set_beta b).2 ≠ none → (e.set_beta b).1 = e) ∧
      ((e.set_beta b).2 = none → (e.set_beta b).1 = { e with beta_ := b })) := by
  unfold set_alpha_r set_beta
  constructor
  · by_cases h : a < 0 ∨ a > 1
    · simp [h]
    · simp [h]
  · by_cases h : b < 0
    · simp [h]
    · simp [h]

/-- C12 at alpha = 3/2 and beta = -1 (both throw, state kept) and at alpha = 1/2 and
beta = 2 (both return, one field changed), on the evaluator of real = {[0,9]},
predicted = {[5,9]}. -/
theorem C12_setter_validation_witness :
    (((ctor_sets [(0, 9)] [(5, 9)]).set_alpha_r (3 / 2)).1 = ctor_sets [(0, 9)] [(5, 9)] ∧
      ((ctor_sets [(0, 9)] [(5, 9)]).set_beta (-1)).1 = ctor_sets [(0, 9)] [(5, 9)]) ∧
    (((ctor_sets [(0, 9)] [(5, 9)]).set_alpha_r (1 / 2)).1 =
        { ctor_sets [(0, 9)] [(5, 9)] with alpha_r_ := 1 / 2 } ∧
      ((ctor_sets [(0, 9)] [(5, 9)]).set_beta 2).1 =
        { ctor_sets [(0, 9)] [(5, 9)] with beta_ := 2 }) :=
  ⟨⟨(C12_setter_validation (ctor_sets [(0, 9)] [(5, 9)]) (3 / 2) (-1)).1.2.1
      ((C12_setter_validation (ctor_sets [(0, 9)] [(5, 9)]) (3 / 2) (-1)).1.1.mpr
        (Or.inr (by norm_num))),
    (C12_setter_validation (ctor_sets [(0, 9)] [(5, 9)]) (3 / 2) (-1)).2.2.1
      ((C12_setter_validation (ctor_sets [(0, 9)] [(5, 9)]) (3 / 2) (-1)).2.1.mpr
        (by norm_num))⟩,
   ⟨(C12_setter_validation (ctor_sets [(0, 9)] [(5, 9)]) (1 / 2) 2).1.2.2
      (by
        have h := (C12_setter_validation (ctor_sets [(0, 9)] [(5, 9)]) (1 / 2) 2).1.1
        by_contra hc
        rcases h.mp hc with h1 | h1 <;> norm_num at h1),
    (C12_setter_validation (ctor_sets [(0, 9)] [(5, 9)]) (1 / 2) 2).2.2.2
      (by
        have h := (C12_setter_validation (ctor_sets [(0, 9)] [(5, 9)]) (1 / 2) 2).2.1
        by_contra hc
        have h1 := h.mp hc
        norm_num at h1)⟩⟩

/-- Every call keeps `alpha_p_` and keeps `gamma_p_ = gamma_r_`. -/
theorem step_preserves_restrictions (e : evaluator) (c : call)
    (h : e.alpha_p_ = 0 ∧ e.gamma_p_ = e.gamma_r_) :
    (step e c).alpha_p_ = 0 ∧ (step e c).gamma_p_ = (step e c).gamma_r_ := by
  cases c with
  | set_beta beta =>
    simp only [step, set_beta]
    split_ifs <;> exact h
  | set_alpha_r alpha =>
    simp only [step, set_alpha_r]
    split_ifs <;> exact h
  | set_gamma gamma =>
    simp only [step, set_gamma]
    split_ifs
    · exact ⟨h.1, rfl⟩
    · exact h
  | set_delta_p bias =>
    simp only [step, set_delta_p]
    split_ifs <;> exact h
  | set_delta_r bias =>
    simp only [step, set_delta_r]
    split_ifs <;> exact h
  | update_precision => exact h
  | update_recall => exact h
  | update_fscore => exact h

theorem run_preserves_restrictions (e : evaluator) (calls : List call)
    (h : e.alpha_p_ = 0 ∧ e.gamma_p_ = e.gamma_r_) :
    (run e calls).alpha_p_ = 0 ∧ (run e calls).gamma_p_ = (run e calls).gamma_r_ := by
  induction calls generalizing e with
  | nil => exact h
  | cons c calls ih => exact ih (step e c) (step_preserves_restrictions e c h)

/-- C13: in every evaluator state reached from any of the three constructors by any sequence
of setter calls (returning or throwing) and update calls, `alpha_p_ = 0` and
`gamma_p_ = gamma_r_`. -/
theorem C13_configuration_invariant (real predicted : time_intervals) (beta alpha_r : ℚ)
    (gamma : overlap_cardinality) (delta_p delta_r : positional_bias) (calls : List call) :
    ((run ctor_default calls).alpha_p_ = 0 ∧
      (run ctor_default calls).gamma_p_ = (run ctor_default calls).gamma_r_) ∧
    ((run (ctor_sets real predicted) calls).alpha_p_ = 0 ∧
      (run (ctor_sets real predicted) calls).gamma_p_ =
        (run (ctor_sets real predicted) calls).gamma_r_) ∧
    ((run (ctor_config real predicted beta alpha_r gamma delta_p delta_r) calls).alpha_p_ = 0 ∧
      (run (ctor_config real predicted beta alpha_r gamma delta_p delta_r) calls).gamma_p_ =
        (run (ctor_config real predicted beta alpha_r gamma delta_p delta_r) calls).gamma_r_) :=
  ⟨run_preserves_restrictions _ calls ⟨rfl, rfl⟩,
   run_preserves_restrictions _ calls ⟨rfl, rfl⟩,
   run_preserves_restrictions _ calls ⟨rfl, rfl⟩⟩

/-! ## The overlap primitive, omega, delta and gamma -/

/-- C14: for all integer ranges r1 = [a,b] and r2 = [c,d], `compute_omega_reward` returns 0
and leaves `overlap_count` unchanged when b < c or a > d; otherwise it increments
`overlap_count` by exactly 1 and returns `omega_function(r1, [max(a,c), min(b,d)], m)`.  For
well-formed r1 and r2 the overlap case occurs exactly when the two ranges share an integer
position, and the positions of `[max(a,c), min(b,d)]` are exactly the shared positions. -/
theorem C14_overlap_primitive (e : evaluator) (r1 r2 : time_range) (overlap_count : Int)
    (m : e_metric) :
    ((r1.2 < r2.1 ∨ r1.1 > r2.2) →
      e.compute_omega_reward r1 r2 overlap_count m = (0, overlap_count)) ∧
    (¬ (r1.2 < r2.1 ∨ r1.1 > r2.2) →
      e.compute_omega_reward r1 r2 overlap_count m =
        (e.omega_function r1 (max r1.1 r2.1, min r1.2 r2.2) m, overlap_count + 1)) ∧
    (well_formed r1 → well_formed r2 →
      ((¬ (r1.2 < r2.1 ∨ r1.1 > r2.2)) ↔
        ∃ j : Int, (r1.1 ≤ j ∧ j ≤ r1.2) ∧ (r2.1 ≤ j ∧ j ≤ r2.2)) ∧
      ∀ j : Int, (max r1.1 r2.1 ≤ j ∧ j ≤ min r1.2 r2.2) ↔
        ((r1.1 ≤ j ∧ j ≤ r1.2) ∧ (r2.1 ≤ j ∧ j ≤ r2.2))) := by
  refine ⟨?_, ?_, ?_⟩
  · intro h
    unfold compute_omega_reward
    rw [if_pos h]
  · intro h
    unfold compute_omega_reward
    rw [if_neg h]
  · intro h1 h2
    unfold well_formed at h1 h2
    constructor
    · constructor
      · intro h
        refine ⟨max r1.1 r2.1, ?_⟩
        rcases max_choice r1.1 r2.1 with hm | hm <;> rw [hm] <;> omega
      · rintro ⟨j, ⟨ha, hb⟩, ⟨hc, hd⟩⟩
        omega
    · intro j
      rw [max_le_iff, le_min_iff]
      constructor
      · rintro ⟨⟨ha, hc⟩, ⟨hb, hd⟩⟩
        exact ⟨⟨ha, hb⟩, ⟨hc, hd⟩⟩
      · rintro ⟨⟨ha, hb⟩, ⟨hc, hd⟩⟩
        exact ⟨⟨ha, hc⟩, ⟨hb, hd⟩⟩

/-- C14 at r1 = [0,9] against r2 = [10,12] (no overlap, count kept) and against r2 = [5,12]
(overlap [5,9], count incremented), both well-formed. -/
theorem C14_overlap_primitive_witness :
    (ctor_default.compute_omega_reward (0, 9) (10, 12) 3 e_recall = (0, 3)) ∧
    (ctor_default.compute_omega_reward (0, 9) (5, 12) 3 e_recall =
      (ctor_default.omega_function (0, 9) (max 0 5, min 9 12) e_recall, 3 + 1)) ∧
    ((¬ ((9 : Int) < 5 ∨ (0 : Int) > 12)) ↔
      ∃ j : Int, (0 ≤ j ∧ j ≤ 9) ∧ (5 ≤ j ∧ j ≤ 12)) :=
  ⟨(C14_overlap_primitive ctor_default (0, 9) (10, 12) 3 e_recall).1 (by decide),
   (C14_overlap_primitive ctor_default (0, 9) (5, 12) 3 e_recall).2.1 (by decide),
   ((C14_overlap_primitive ctor_default (0, 9) (5, 12) 3 e_recall).2.2
      (by decide) (by decide)).1⟩

/-- C15: for every integer range (well-formed or not), every overlap sub-range, every metric
side and every delta selector, `omega_function` returns captured_bias / max_bias when
max_bias > 0 and 0 otherwise, where max_bias sums the delta weights of the loop positions
1..L and captured_bias sums those whose absolute position lies in the overlap; the returned
value lies in [0,1], and it is 0 for a range with start > end. -/
theorem C15_omega_normalized (e : evaluator) (range overlap : time_range) (m : e_metric) :
    (e.omega_loop range overlap m =
      (∑ k in Finset.range (range.2 - range.1 + 1).toNat,
          (if overlap.1 ≤ range.1 + (k : Int) ∧ range.1 + (k : Int) ≤ overlap.2
            then e.delta_function ((k : Int) + 1) (range.2 - range.1 + 1) m else 0),
       ∑ k in Finset.range (range.2 - range.1 + 1).toNat,
          e.delta_function ((k : Int) + 1) (range.2 - range.1 + 1) m)) ∧
    (0 < (e.omega_loop range overlap m).2 →
      e.omega_function range overlap m =
        (e.omega_loop range overlap m).1 / (e.omega_loop range overlap m).2) ∧
    (¬ 0 < (e.omega_loop range overlap m).2 → e.omega_function range overlap m = 0) ∧
    (0 ≤ e.omega_function range overlap m ∧ e.omega_function range overlap m ≤ 1) ∧
    (range.1 > range.2 → e.omega_function range overlap m = 0) := by
  refine ⟨omega_loop_eq e range overlap m, ?_, ?_,
    ⟨omega_function_nonneg e range overlap m, omega_function_le_one e range overlap m⟩, ?_⟩
  · intro h
    unfold omega_function
    simp only [gt_iff_lt, h, if_true]
  · intro h
    unfold omega_function
    simp only [gt_iff_lt, h, if_false]
  · intro h
    have hn : loop_count range = 0 := by
      unfold loop_count; omega
    rw [omega_function_eq, hn]
    simp

/-- C15 at the well-formed range [0,9] with overlap [5,9] under the flat bias (max_bias 10 is
positive, omega is captured/max) and at the reversed range [9,0] (max_bias 0, omega 0). -/
theorem C15_omega_normalized_witness :
    (ctor_default.omega_function (0, 9) (5, 9) e_recall =
      (ctor_default.omega_loop (0, 9) (5, 9) e_recall).1 /
        (ctor_default.omega_loop (0, 9) (5, 9) e_recall).2) ∧
    (ctor_default.omega_function (9, 0) (5, 9) e_recall = 0) ∧
    (ctor_default.omega_function (9, 0) (5, 9) e_recall = 0) :=
  ⟨(C15_omega_normalized ctor_default (0, 9) (5, 9) e_recall).2.1 (by
      simp [omega_loop, omega_step, ctor_default, delta_function, delta_select, List.range,
        List.range.loop]
      norm_num),
   (C15_omega_normalized ctor_default (9, 0) (5, 9) e_recall).2.2.1 (by
      simp [omega_loop]),
   (C15_omega_normalized ctor_default (9, 0) (5, 9) e_recall).2.2.2.2 (by decide)⟩

/-- C16: for every range length L >= 1, every position t with 1 <= t <= L, every metric side
and every selector (flat, front, middle, back, udf_delta with its shipped body, or any other
value), `delta_function(t, L, side)` is strictly positive; it is `delta_select` of `delta_p_`
on the precision side and of `delta_r_` on the recall side, and `delta_select` gives 1 for
flat, L - t + 1 for front, t for back and 1 for udf_delta. -/
theorem C16_delta_positive (e : evaluator) (t L : Int) (m : e_metric)
    (h1 : 1 ≤ t) (h2 : t ≤ L) :
    0 < e.delta_function t L m ∧
    (∀ delta : positional_bias, 0 < e.delta_select delta t L m) ∧
    e.delta_function t L e_precision = e.delta_select e.delta_p_ t L e_precision ∧
    e.delta_function t L e_recall = e.delta_select e.delta_r_ t L e_recall ∧
    e.delta_select e_flat t L m = 1 ∧
    e.delta_select e_front t L m = ((L - t + 1 : Int) : ℚ) ∧
    e.delta_select e_back t L m = (t : ℚ) ∧
    e.delta_select e_udf_delta t L m = 1 := by
  refine ⟨delta_function_pos e t L m h1 h2, fun delta => delta_select_pos e delta t L m h1 h2,
    ?_, ?_, ?_, ?_, ?_, ?_⟩
  · simp [delta_function]
  · simp [delta_function]
  · simp [delta_select]
  · simp [delta_select]
  · simp [delta_select]
  · simp [delta_select, udf_delta_def]

/-- C16 at t = 3, L = 10 on the recall side of the default evaluator. -/
theorem C16_delta_positive_witness :
    0 < ctor_default.delta_function 3 10 e_recall ∧
    ctor_default.delta_select e_front 3 10 e_recall = ((10 - 3 + 1 : Int) : ℚ) ∧
    ctor_default.delta_select e_back 3 10 e_recall = ((3 : Int) : ℚ) :=
  ⟨(C16_delta_positive ctor_default 3 10 e_recall (by decide) (by decide)).1,
   (C16_delta_positive ctor_default 3 10 e_recall (by decide) (by decide)).2.2.2.2.2.1,
   (C16_delta_positive ctor_default 3 10 e_recall (by decide) (by decide)).2.2.2.2.2.2.1⟩

/-- C17: for every integer overlap_count, every metric side and every selector (one,
reciprocal, udf_gamma with its shipped body, or any other value), `gamma_function` returns a
value in (0,1]; `gamma_select` gives, for reciprocal, 1 when overlap_count <= 1 and
1/overlap_count otherwise, and for one, 1 always. -/
theorem C17_gamma_range (e : evaluator) (overlap_count : Int) (m : e_metric) :
    (0 < e.gamma_function overlap_count m ∧ e.gamma_function overlap_count m ≤ 1) ∧
    (∀ gamma : overlap_cardinality,
      0 < e.gamma_select gamma overlap_count m ∧ e.gamma_select gamma overlap_count m ≤ 1) ∧
    e.gamma_function overlap_count e_precision =
      e.gamma_select e.gamma_p_ overlap_count e_precision ∧
    e.gamma_function overlap_count e_recall =
      e.gamma_select e.gamma_r_ overlap_count e_recall ∧
    e.gamma_select e_reciprocal overlap_count m =
      (if overlap_count ≤ 1 then 1 else 1 / (overlap_count : ℚ)) ∧
    e.gamma_select e_one overlap_count m = 1 := by
  refine ⟨⟨gamma_function_pos e overlap_count m, gamma_function_le_one e overlap_count m⟩,
    fun gamma => ⟨gamma_select_pos e gamma overlap_count m,
      gamma_select_le_one e gamma overlap_count m⟩, ?_, ?_, ?_, ?_⟩
  · simp [gamma_function]
  · simp [gamma_function]
  · by_cases h : overlap_count ≤ 1
    · have h2 : ¬ overlap_count > 1 := by omega
      simp [gamma_select, h, h2]
    · have h2 : overlap_count > 1 := by omega
      simp [gamma_select, h, h2]
  · simp [gamma_select]

/-! ## Unit-size ranges: the classical point-wise metrics -/

theorem pairwise_disjoint_unit (rs : List Int) (h : rs.Nodup) :
    pairwise_disjoint (rs.map (fun i => (i, i))) := by
  unfold pairwise_disjoint
  rw [List.pairwise_map]
  refine List.Pairwise.imp ?_ h
  intro a b hab hov
  unfold overlaps at hov
  simp only at hov
  omega

/-- Against a set of unit-size ranges at pairwise distinct positions, a unit-size range
contributes 1 if its position is in the set and 0 otherwise. -/
theorem contribution_unit (e : evaluator) (alpha : ℚ) (m : e_metric) (rs : List Int)
    (h : rs.Nodup) (i : Int) :
    e.contribution alpha m (rs.map (fun j => (j, j))) (i, i) =
      if decide (i ∈ rs) = true then 1 else 0 := by
  by_cases hi : i ∈ rs
  · simp only [hi, decide_True, if_true]
    exact contribution_self_of_disjoint e alpha m _ (pairwise_disjoint_unit rs h) (i, i)
      (List.mem_map.mpr ⟨i, hi, rfl⟩) (le_refl i)
  · simp only [hi, decide_False, Bool.false_eq_true, if_false]
    apply contribution_of_no_overlap
    apply overlapping_eq_nil
    intro p hp
    obtain ⟨j, hj, rfl⟩ := List.mem_map.mp hp
    have hne : i ≠ j := fun hij => hi (hij ▸ hj)
    simp only
    omega

theorem length_filter_mem_eq_card_inter (ps rs : List Int) (h : ps.Nodup) :
    (ps.filter (fun i => decide (i ∈ rs))).length = (ps.toFinset ∩ rs.toFinset).card := by
  rw [← List.toFinset_card_of_nodup (h.filter _), List.toFinset_filter]
  congr 1
  ext x
  simp

/-- The sum of the contributions of unit-size ranges at the positions `ps` against unit-size
ranges at the pairwise distinct positions `rs` is the number of common positions. -/
theorem sum_contribution_unit (e : evaluator) (alpha : ℚ) (m : e_metric) (ps rs : List Int)
    (hps : ps.Nodup) (hrs : rs.Nodup) :
    ((ps.map (fun i => (i, i))).map
      (e.contribution alpha m (rs.map (fun j => (j, j))))).sum =
      ((ps.toFinset ∩ rs.toFinset).card : ℚ) := by
  rw [List.map_map, ← length_filter_mem_eq_card_inter ps rs hps,
    ← sum_indicator_eq_length_filter]
  congr 1
  apply List.map_congr_left
  intro i _
  exact contribution_unit e alpha m rs hrs i

/-- C18: if every range of both sets is unit-size ([i,i]) and the positions within each set
are pairwise distinct, then for every gamma and delta selector and every alpha,
`compute_precision` = |P ∩ R| / |P| when P is non-empty and `compute_recall` = |P ∩ R| / |R|
when R is non-empty, where P and R are the sets of predicted and real positions. -/
theorem C18_classical_metrics (e : evaluator) (ps rs : List Int)
    (hps : ps.Nodup) (hrs : rs.Nodup)
    (hpred : e.predicted_anomalies_ = ps.map (fun i => (i, i)))
    (hreal : e.real_anomalies_ = rs.map (fun i => (i, i))) :
    (ps ≠ [] → e.compute_precision =
      ((ps.toFinset ∩ rs.toFinset).card : ℚ) / (ps.toFinset.card : ℚ)) ∧
    (rs ≠ [] → e.compute_recall =
      ((ps.toFinset ∩ rs.toFinset).card : ℚ) / (rs.toFinset.card : ℚ)) := by
  constructor
  · intro hne
    have hlen : (ps.map (fun i => ((i, i) : time_range))).length ≠ 0 := by
      simpa [List.length_eq_zero] using hne
    rw [compute_precision_eq, hpred, hreal, if_neg hlen,
      sum_contribution_unit e _ _ ps rs hps hrs, List.length_map,
      List.toFinset_card_of_nodup hps]
  · intro hne
    have hlen : (rs.map (fun i => ((i, i) : time_range))).length ≠ 0 := by
      simpa [List.length_eq_zero] using hne
    rw [compute_recall_eq, hpred, hreal, if_neg hlen,
      sum_contribution_unit e _ _ rs ps hrs hps, List.length_map,
      List.toFinset_card_of_nodup hrs, Finset.inter_comm]

/-- C18 at predicted positions {1, 2, 4, 7} and real positions {2, 3, 4}, with
gamma = reciprocal, delta_p = middle, delta_r = front and alpha_r = 1/2: precision is 2/4 and
recall is 2/3. -/
theorem C18_classical_metrics_witness :
    (ctor_config [(2, 2), (3, 3), (4, 4)] [(1, 1), (2, 2), (4, 4), (7, 7)] 1 (1 / 2)
      e_reciprocal e_middle e_front).compute_precision = 2 / 4 ∧
    (ctor_config [(2, 2), (3, 3), (4, 4)] [(1, 1), (2, 2), (4, 4), (7, 7)] 1 (1 / 2)
      e_reciprocal e_middle e_front).compute_recall = 2 / 3 := by
  have h := C18_classical_metrics
    (ctor_config [(2, 2), (3, 3), (4, 4)] [(1, 1), (2, 2), (4, 4), (7, 7)] 1 (1 / 2)
      e_reciprocal e_middle e_front) [1, 2, 4, 7] [2, 3, 4] (by decide) (by decide) rfl rfl
  have hc : (([1, 2, 4, 7] : List Int).toFinset ∩ ([2, 3, 4] : List Int).toFinset).card = 2 := by
    decide
  have hp : ([1, 2, 4, 7] : List Int).toFinset.card = 4 := by decide
  have hr : ([2, 3, 4] : List Int).toFinset.card = 3 := by decide
  rw [hc, hp, hr] at h
  exact ⟨by rw [h.1 (by simp)]; norm_num, by rw [h.2 (by simp)]; norm_num⟩

/-! ## Cached results -/

/-- The update calls do not change what `compute_precision` and `compute_recall` return. -/
theorem compute_after_updates (e : evaluator) :
    e.update_precision.update_recall.update_fscore.compute_precision = e.compute_precision ∧
    e.update_precision.update_recall.update_fscore.compute_recall = e.compute_recall :=
  ⟨rfl, rfl⟩

/-- C20 (as stated, refuted): the state built by the constructor `evaluator(real, predicted)`
for real = predicted = {[0,4]}, with no further call, has the cached precision 0 while
`compute_precision` returns 1, and likewise for recall. -/
theorem C20_cache_stale_after_construction :
    (run (ctor_sets [(0, 4)] [(0, 4)]) []).precision_ = 0 ∧
    (run (ctor_sets [(0, 4)] [(0, 4)]) []).compute_precision = 1 ∧
    (run (ctor_sets [(0, 4)] [(0, 4)]) []).precision_ ≠
      (run (ctor_sets [(0, 4)] [(0, 4)]) []).compute_precision ∧
    (run (ctor_sets [(0, 4)] [(0, 4)]) []).recall_ ≠
      (run (ctor_sets [(0, 4)] [(0, 4)]) []).compute_recall := by
  have hp : (run (ctor_sets [(0, 4)] [(0, 4)]) []).compute_precision = 1 := by
    simp [run, compute_precision, ctor_sets, inner_step, compute_omega_reward, omega_function,
      omega_loop, omega_step, delta_function, delta_select, gamma_function, gamma_select,
      List.range, List.range.loop]
    norm_num
  have hr : (run (ctor_sets [(0, 4)] [(0, 4)]) []).compute_recall = 1 := by
    simp [run, compute_recall, ctor_sets, inner_step, compute_omega_reward, omega_function,
      omega_loop, omega_step, delta_function, delta_select, gamma_function, gamma_select,
      List.range, List.range.loop]
    norm_num
  have hp0 : (run (ctor_sets [(0, 4)] [(0, 4)]) []).precision_ = 0 := rfl
  have hr0 : (run (ctor_sets [(0, 4)] [(0, 4)]) []).recall_ = 0 := rfl
  refine ⟨hp0, hp, ?_, ?_⟩
  · rw [hp, hp0]; norm_num
  · rw [hr, hr0]; norm_num

/-- C20 (amended): in every evaluator state reached from any state (so from any constructor)
by any sequence of setter and update calls that ends with `update_precision`,
`update_recall`, `update_fscore` in that order, the cached precision equals
`compute_precision`, the cached recall equals `compute_recall`, and the cached F-score equals
the F-score formula applied to `compute_precision`, `compute_recall` and beta. -/
theorem C20_cache_fresh_after_updates (e : evaluator) (calls : List call) :
    (run e (calls ++ [call.update_precision, call.update_recall,
        call.update_fscore])).precision_ =
      (run e (calls ++ [call.update_precision, call.update_recall,
        call.update_fscore])).compute_precision ∧
    (run e (calls ++ [call.update_precision, call.update_recall,
        call.update_fscore])).recall_ =
      (run e (calls ++ [call.update_precision, call.update_recall,
        call.update_fscore])).compute_recall ∧
    (run e (calls ++ [call.update_precision, call.update_recall,
        call.update_fscore])).fscore_ =
      fscore_formula
        (run e (calls ++ [call.update_precision, call.update_recall,
          call.update_fscore])).beta_
        (run e (calls ++ [call.update_precision, call.update_recall,
          call.update_fscore])).compute_precision
        (run e (calls ++ [call.update_precision, call.update_recall,
          call.update_fscore])).compute_recall := by
  have hrun : run e (calls ++ [call.update_precision, call.update_recall,
      call.update_fscore]) = (run e calls).update_precision.update_recall.update_fscore := by
    unfold run
    rw [List.foldl_append]
    rfl
  rw [hrun, (compute_after_updates (run e calls)).1, (compute_after_updates (run e calls)).2]
  refine ⟨rfl, rfl, ?_⟩
  rw [fscore_after_updates]
  unfold fscore_formula
  have hb : (run e calls).update_precision.update_recall.update_fscore.beta_ =
      (run e calls).beta_ := rfl
  rw [hb]
  simp only [mul_assoc]

/-! ## Interval extraction -/

theorem covered_concat (l : time_intervals) (r : time_range) (k : Int) :
    covered (l ++ [r]) k ↔ covered l k ∨ (r.1 ≤ k ∧ k ≤ r.2) := by
  unfold covered
  constructor
  · rintro ⟨q, hq, hk⟩
    rcases List.mem_append.mp hq with h | h
    · exact Or.inl ⟨q, h, hk⟩
    · rw [List.mem_singleton] at h
      subst h
      exact Or.inr hk
  · rintro (⟨q, hq, hk⟩ | hk)
    · exact ⟨q, List.mem_append_left _ hq, hk⟩
    · exact ⟨r, List.mem_append_right _ (List.mem_singleton_self r), hk⟩

theorem getElem?_concat_eq_some (pre : List Int) (label v : Int) (n : Nat) :
    (pre ++ [label])[n]? = some v ↔ (pre[n]? = some v ∨ (n = pre.length ∧ label = v)) := by
  by_cases h : n < pre.length
  · rw [List.getElem?_append_left h]
    constructor
    · exact Or.inl
    · rintro (h1 | ⟨h1, _⟩)
      · exact h1
      · omega
  · have hle : pre.length ≤ n := Nat.le_of_not_lt h
    rw [List.getElem?_append_right hle, List.getElem?_eq_none hle]
    by_cases h0 : n = pre.length
    · subst h0
      simp
    · have : n - pre.length ≠ 0 := by omega
      obtain ⟨j, hj⟩ := Nat.exists_eq_succ_of_ne_zero this
      rw [hj]
      simp [h0]

theorem is_anomaly_concat (pre : List Int) (label : Int) (k : Int) :
    is_anomaly (pre ++ [label]) k ↔
      (is_anomaly pre k ∨ (k = (pre.length : Int) ∧ label = 1)) := by
  unfold is_anomaly
  rw [getElem?_concat_eq_some]
  constructor
  · rintro ⟨h0, h1 | ⟨h1, h2⟩⟩
    · exact Or.inl ⟨h0, h1⟩
    · exact Or.inr ⟨by omega, h2⟩
  · rintro (⟨h0, h1⟩ | ⟨h1, h2⟩)
    · exact ⟨h0, Or.inl h1⟩
    · exact ⟨by omega, Or.inr ⟨by omega, h2⟩⟩

theorem read_inv_init : read_inv [] ⟨[], 0, (0, 0), false⟩ := by
  refine ⟨rfl, ?_, List.Pairwise.nil, ?_, ?_, ?_⟩
  · intro r hr; exact absurd hr (List.not_mem_nil r)
  · intro h; exact absurd h (by decide)
  · intro _ r hr; exact absurd hr (List.not_mem_nil r)
  · intro k
    unfold covered is_anomaly
    simp

/-- One iteration of the loop of `read_file` on a label 0 or 1 returns and keeps the
invariant. -/
theorem read_file_step_inv (pre : List Int) (st : read_state) (label : Int)
    (hinv : read_inv pre st) (hl : label = 0 ∨ label = 1) :
    ∃ st1, read_file_step st label = Except.ok st1 ∧ read_inv (pre ++ [label]) st1 := by
  obtain ⟨hi, hwf, hpw, hst, hns, hcov⟩ := hinv
  have hlen : ((pre ++ [label]).length : Int) = st.i + 1 := by
    rw [List.length_append, List.length_singleton, hi]; push_cast; ring
  rcases hl with hl | hl
  · -- label 0
    have h1 : ¬ label = 1 := by omega
    by_cases hs : st.range_started = true
    · obtain ⟨hr1, hr2, hr3⟩ := hst hs
      refine ⟨⟨st.anomalies ++ [st.range], st.i + 1, st.range, false⟩, ?_, ?_⟩
      · unfold read_file_step
        rw [if_neg h1, if_pos hl, if_pos hs]
      · refine ⟨hlen.symm, ?_, ?_, ?_, ?_, ?_⟩
        · intro r hr
          rcases List.mem_append.mp hr with h | h
          · exact hwf r h
          · rw [List.mem_singleton] at h; rw [h]; exact hr1
        · rw [List.pairwise_append]
          refine ⟨hpw, List.pairwise_singleton _ _, ?_⟩
          intro a ha b hb
          rw [List.mem_singleton] at hb
          rw [hb]
          exact hr3 a ha
        · intro h; simp at h
        · intro _ r hr
          simp only at hr ⊢
          rcases List.mem_append.mp hr with h | h
          · have := hr3 r h; omega
          · rw [List.mem_singleton] at h; rw [h]; omega
        · intro k
          simp only
          rw [covered_concat, is_anomaly_concat, ← hcov k]
          constructor
          · rintro ((h | h) | ⟨h, _⟩)
            · exact Or.inl (Or.inl h)
            · exact Or.inl (Or.inr ⟨hs, h⟩)
            · exact absurd h (by decide)
          · rintro ((h | ⟨_, h⟩) | ⟨_, h⟩)
            · exact Or.inl (Or.inl h)
            · exact Or.inl (Or.inr h)
            · omega
    · have hs2 : st.range_started = false := by
        cases hb : st.range_started
        · rfl
        · exact absurd hb hs
      refine ⟨⟨st.anomalies, st.i + 1, st.range, st.range_started⟩, ?_, ?_⟩
      · unfold read_file_step
        rw [if_neg h1, if_pos hl, if_neg hs]
      · refine ⟨hlen.symm, hwf, hpw, ?_, ?_, ?_⟩
        · intro h; exact absurd h hs
        · intro _ r hr
          have := hns hs2 r hr
          simp only
          omega
        · intro k
          simp only
          rw [is_anomaly_concat, ← hcov k]
          constructor
          · exact Or.inl
          · rintro (h | ⟨_, h⟩)
            · exact h
            · omega
  · -- label 1
    by_cases hs : st.range_started = true
    · obtain ⟨hr1, hr2, hr3⟩ := hst hs
      refine ⟨⟨st.anomalies, st.i + 1, (st.range.1, st.i), st.range_started⟩, ?_, ?_⟩
      · unfold read_file_step
        rw [if_pos hl]
        simp [hs]
      · refine ⟨hlen.symm, hwf, hpw, ?_, ?_, ?_⟩
        · intro _
          simp only
          exact ⟨by omega, trivial, hr3⟩
        · intro h; simp only at h; rw [hs] at h; exact absurd h (by decide)
        · intro k
          simp only
          rw [is_anomaly_concat, ← hcov k]
          constructor
          · rintro (h | ⟨_, h2, h3⟩)
            · exact Or.inl (Or.inl h)
            · by_cases hk : k = st.i
              · exact Or.inr ⟨by omega, hl⟩
              · exact Or.inl (Or.inr ⟨hs, h2, by omega⟩)
          · rintro ((h | ⟨_, h2, h3⟩) | ⟨h, _⟩)
            · exact Or.inl h
            · exact Or.inr ⟨hs, h2, by omega⟩
            · exact Or.inr ⟨hs, by omega, by omega⟩
    · have hs2 : st.range_started = false := by
        cases hb : st.range_started
        · rfl
        · exact absurd hb hs
      refine ⟨⟨st.anomalies, st.i + 1, (st.i, st.i), true⟩, ?_, ?_⟩
      · unfold read_file_step
        rw [if_pos hl]
        simp [hs2]
      · refine ⟨hlen.symm, hwf, hpw, ?_, ?_, ?_⟩
        · intro _
          simp only
          exact ⟨le_refl _, trivial, hns hs2⟩
        · intro h; simp at h
        · intro k
          simp only
          rw [is_anomaly_concat, ← hcov k]
          constructor
          · rintro (h | ⟨_, h2, h3⟩)
            · exact Or.inl (Or.inl h)
            · exact Or.inr ⟨by omega, hl⟩
          · rintro ((h | ⟨h, _⟩) | ⟨h, _⟩)
            · exact Or.inl h
            · exact absurd h hs
            · exact Or.inr ⟨trivial, by omega, by omega⟩

/-- The loop of `read_file` on labels 0 and 1 returns and establishes the invariant for all
the labels read. -/
theorem read_file_loop_inv (data pre : List Int) (st : read_state)
    (hinv : read_inv pre st) (hl : ∀ l ∈ data, l = 0 ∨ l = 1) :
    ∃ st1, read_file_loop data st = Except.ok st1 ∧ read_inv (pre ++ data) st1 := by
  induction data generalizing pre st with
  | nil =>
    refine ⟨st, rfl, ?_⟩
    rw [List.append_nil]
    exact hinv
  | cons label data ih =>
    obtain ⟨st1, h1, hinv1⟩ :=
      read_file_step_inv pre st label hinv (hl label (List.mem_cons_self label data))
    obtain ⟨st2, h2, hinv2⟩ :=
      ih (pre ++ [label]) st1 hinv1 (fun l hm => hl l (List.mem_cons_of_mem label hm))
    refine ⟨st2, ?_, ?_⟩
    · unfold read_file_loop
      rw [h1]
      exact h2
    · rw [List.append_assoc] at hinv2
      exact hinv2

/-- C19: for every finite sequence of labels drawn from {0,1}, `read_file` returns, with
count = the number of labels, a list of ranges in which every range has start <= end,
consecutive ranges are separated by a gap (next.start >= previous.end + 2, and so for every
earlier and later range of the list), and a 0-based position is covered by some returned
range if and only if its label is 1. -/
theorem C19_read_file_maximal_runs (labels : List Int) (hl : ∀ l ∈ labels, l = 0 ∨ l = 1) :
    ∃ ranges : time_intervals,
      read_file labels = Except.ok (ranges, (labels.length : Int)) ∧
      (∀ r ∈ ranges, r.1 ≤ r.2) ∧
      ranges.Chain' (fun a b => b.1 ≥ a.2 + 2) ∧
      ranges.Pairwise (fun a b => b.1 ≥ a.2 + 2) ∧
      (∀ k : Int, (∃ r ∈ ranges, r.1 ≤ k ∧ k ≤ r.2) ↔
        (0 ≤ k ∧ labels[k.toNat]? = some 1)) := by
  obtain ⟨st, hloop, hinv⟩ := read_file_loop_inv labels [] ⟨[], 0, (0, 0), false⟩
    read_inv_init hl
  rw [List.nil_append] at hinv
  obtain ⟨hi, hwf, hpw, hst, hns, hcov⟩ := hinv
  have hres : read_file labels =
      Except.ok (if st.range_started then st.anomalies ++ [st.range] else st.anomalies,
        (labels.length : Int)) := by
    unfold read_file
    rw [hloop]
    simp only [hi]
  by_cases hs : st.range_started = true
  · obtain ⟨hr1, _, hr3⟩ := hst hs
    have hpw2 : (st.anomalies ++ [st.range]).Pairwise (fun a b => b.1 ≥ a.2 + 2) := by
      rw [List.pairwise_append]
      refine ⟨hpw, List.pairwise_singleton _ _, ?_⟩
      intro a ha b hb
      rw [List.mem_singleton] at hb
      rw [hb]
      exact hr3 a ha
    refine ⟨st.anomalies ++ [st.range], ?_, ?_, hpw2.chain', hpw2, ?_⟩
    · rw [hres, if_pos hs]
    · intro r hr
      rcases List.mem_append.mp hr with h | h
      · exact hwf r h
      · rw [List.mem_singleton] at h; rw [h]; exact hr1
    · intro k
      have h1 := covered_concat st.anomalies st.range k
      have h2 := hcov k
      unfold covered at h1 h2
      unfold is_anomaly at h2
      rw [h1, ← h2]
      constructor
      · rintro (h | h)
        · exact Or.inl h
        · exact Or.inr ⟨hs, h⟩
      · rintro (h | ⟨_, h⟩)
        · exact Or.inl h
        · exact Or.inr h
  · refine ⟨st.anomalies, ?_, hwf, hpw.chain', hpw, ?_⟩
    · rw [hres, if_neg hs]
    · intro k
      have h2 := hcov k
      unfold covered is_anomaly at h2
      rw [← h2]
      constructor
      · exact Or.inl
      · rintro (h | ⟨h, _⟩)
        · exact h
        · exact absurd h hs

/-- C19 at the labels 0 1 1 0 1 0 0 1 1: the ranges are [1,2], [4,4], [7,8] and the count
is 9. -/
theorem C19_read_file_maximal_runs_witness :
    ∃ ranges : time_intervals,
      read_file [0, 1, 1, 0, 1, 0, 0, 1, 1] = Except.ok (ranges, 9) ∧
      ranges = [(1, 2), (4, 4), (7, 8)] ∧
      (∀ r ∈ ranges, r.1 ≤ r.2) ∧
      ranges.Chain' (fun a b => b.1 ≥ a.2 + 2) := by
  obtain ⟨ranges, h1, h2, h3, _, _⟩ :=
    C19_read_file_maximal_runs [0, 1, 1, 0, 1, 0, 0, 1, 1] (by decide)
  have h4 : read_file [0, 1, 1, 0, 1, 0, 0, 1, 1] =
      Except.ok ([(1, 2), (4, 4), (7, 8)], 9) := rfl
  rw [h4] at h1
  have h5 : ranges = [(1, 2), (4, 4), (7, 8)] := by
    injection h1 with h1
    exact (Prod.mk.inj h1).1.symm
  exact ⟨ranges, by rw [h4, h5], h5, h2, h3⟩

/-- The loop of `read_file_unitsize` on labels 0 and 1, started with unit-size ranges at
increasing positions below the counter, returns unit-size ranges at increasing positions. -/
theorem read_file_unitsize_loop_shape (data : List Int) (ps : List Int) (n : Int)
    (hl : ∀ l ∈ data, l = 0 ∨ l = 1) (hps : ps.Pairwise (fun a b => a < b))
    (hlt : ∀ p ∈ ps, p < n) :
    ∃ qs : List Int,
      read_file_unitsize_loop data (ps.map (fun i => (i, i)), n) =
        Except.ok (qs.map (fun i => (i, i)), n + (data.length : Int)) ∧
      qs.Pairwise (fun a b => a < b) := by
  induction data generalizing ps n with
  | nil => exact ⟨ps, by simp [read_file_unitsize_loop], hps⟩
  | cons label data ih =>
    have hrest : ∀ l ∈ data, l = 0 ∨ l = 1 := fun l hm => hl l (List.mem_cons_of_mem label hm)
    have hlen : n + 1 + (data.length : Int) = n + ((label :: data).length : Int) := by
      rw [List.length_cons]; push_cast; ring
    rcases hl label (List.mem_cons_self label data) with h0 | h1
    · have hn1 : ¬ label = 1 := by omega
      obtain ⟨qs, hq, hqp⟩ := ih ps (n + 1) hrest hps (fun p hp => by have := hlt p hp; omega)
      have hstep : read_file_unitsize_step (ps.map (fun i => (i, i)), n) label =
          Except.ok (ps.map (fun i => (i, i)), n + 1) := by
        unfold read_file_unitsize_step
        rw [if_neg hn1, if_pos h0]
      refine ⟨qs, ?_, hqp⟩
      rw [← hlen, ← hq]
      simp only [read_file_unitsize_loop, hstep]
    · have hps2 : (ps ++ [n]).Pairwise (fun a b => a < b) := by
        rw [List.pairwise_append]
        refine ⟨hps, List.pairwise_singleton _ _, ?_⟩
        intro a ha b hb
        rw [List.mem_singleton] at hb
        rw [hb]
        exact hlt a ha
      obtain ⟨qs, hq, hqp⟩ := ih (ps ++ [n]) (n + 1) hrest hps2 (fun p hp => by
        rcases List.mem_append.mp hp with h | h
        · have := hlt p h; omega
        · rw [List.mem_singleton] at h; omega)
      have hstep : read_file_unitsize_step (ps.map (fun i => (i, i)), n) label =
          Except.ok (ps.map (fun i => (i, i)) ++ [(n, n)], n + 1) := by
        unfold read_file_unitsize_step
        rw [if_pos h1]
      refine ⟨qs, ?_, hqp⟩
      rw [List.map_append, List.map_singleton] at hq
      rw [← hlen, ← hq]
      simp only [read_file_unitsize_loop, hstep]

/-- On labels 0 and 1, `read_file_unitsize` returns unit-size ranges at pairwise distinct
positions, together with the number of labels. -/
theorem read_file_unitsize_shape (labels : List Int) (hl : ∀ l ∈ labels, l = 0 ∨ l = 1) :
    ∃ qs : List Int,
      read_file_unitsize labels =
        Except.ok (qs.map (fun i => (i, i)), (labels.length : Int)) ∧ qs.Nodup := by
  obtain ⟨qs, hq, hqp⟩ := read_file_unitsize_loop_shape labels [] 0 hl List.Pairwise.nil
    (fun p hp => absurd hp (List.not_mem_nil p))
  refine ⟨qs, ?_, hqp.imp (fun h => ne_of_lt h)⟩
  unfold read_file_unitsize
  rw [List.map_nil] at hq
  rw [hq, zero_add]

/-! ## Explicit recompute and the F-score -/

/-- C21: calling `update_precision`, `update_recall`, `update_fscore` in that order on any
evaluator yields a state in which the cached precision equals `compute_precision`, the cached
recall equals `compute_recall` and the cached F-score is
(1 + beta^2) * compute_precision * compute_recall / (beta^2 * compute_precision + compute_recall)
(no finite value when that denominator is zero); the calls change nothing but the three
cached scalars, and they do not change what `compute_precision` and `compute_recall`
return. -/
theorem C21_explicit_recompute (e : evaluator) :
    e.update_precision.update_recall.update_fscore.precision_ =
      e.update_precision.update_recall.update_fscore.compute_precision ∧
    e.update_precision.update_recall.update_fscore.recall_ =
      e.update_precision.update_recall.update_fscore.compute_recall ∧
    e.update_precision.update_recall.update_fscore.fscore_ =
      fscore_formula e.update_precision.update_recall.update_fscore.beta_
        e.update_precision.update_recall.update_fscore.compute_precision
        e.update_precision.update_recall.update_fscore.compute_recall ∧
    e.update_precision.update_recall.update_fscore =
      { e with precision_ := e.compute_precision, recall_ := e.compute_recall,
               fscore_ := fscore_formula e.beta_ e.compute_precision e.compute_recall } ∧
    run e [call.update_precision, call.update_recall, call.update_fscore] =
      e.update_precision.update_recall.update_fscore := by
  have hf : e.update_precision.update_recall.update_fscore.fscore_ =
      fscore_formula e.beta_ e.compute_precision e.compute_recall := by
    rw [fscore_after_updates]
    unfold fscore_formula
    simp only [mul_assoc]
  refine ⟨rfl, rfl, hf, ?_, rfl⟩
  have h1 : e.update_precision.update_recall.update_fscore =
      { e with precision_ := e.compute_precision, recall_ := e.compute_recall,
               fscore_ := e.update_precision.update_recall.update_fscore.fscore_ } := rfl
  rw [h1, hf]

/-- C22 (amended): with arithmetic taken as exact, for every beta > 0 and all cached
precision P >= 0 and recall R >= 0, the denominator beta^2 * P + R of `compute_fscore` is
zero, so that `compute_fscore` has no finite value, if and only if P = 0 and R = 0; with
beta = 0, which `set_beta` accepts, the denominator is zero if and only if R = 0. -/
theorem C22_fscore_division_by_zero (e : evaluator) :
    (0 < e.beta_ → 0 ≤ e.precision_ → 0 ≤ e.recall_ →
      ((e.beta_ ^ 2 * e.precision_ + e.recall_ = 0 ↔ (e.precision_ = 0 ∧ e.recall_ = 0)) ∧
       (e.compute_fscore = none ↔ (e.precision_ = 0 ∧ e.recall_ = 0)))) ∧
    (e.beta_ = 0 →
      ((e.beta_ ^ 2 * e.precision_ + e.recall_ = 0 ↔ e.recall_ = 0) ∧
       (e.compute_fscore = none ↔ e.recall_ = 0))) ∧
    (e.set_beta 0).2 = none ∧ ((e.set_beta 0).1).beta_ = 0 := by
  have hnone : e.compute_fscore = none ↔ e.beta_ ^ 2 * e.precision_ + e.recall_ = 0 := by
    unfold compute_fscore
    simp only
    split_ifs with h
    · simp [h]
    · simp [h]
  refine ⟨?_, ?_, ?_, ?_⟩
  · intro hb hP hR
    have hb2 : 0 < e.beta_ ^ 2 := by positivity
    have hden : e.beta_ ^ 2 * e.precision_ + e.recall_ = 0 ↔
        (e.precision_ = 0 ∧ e.recall_ = 0) := by
      constructor
      · intro h
        have h1 : 0 ≤ e.beta_ ^ 2 * e.precision_ := mul_nonneg (le_of_lt hb2) hP
        have h2 : e.beta_ ^ 2 * e.precision_ = 0 := by linarith
        have h3 : e.recall_ = 0 := by linarith
        rcases mul_eq_zero.mp h2 with h4 | h4
        · exact absurd h4 (ne_of_gt hb2)
        · exact ⟨h4, h3⟩
      · rintro ⟨h1, h2⟩
        rw [h1, h2]
        ring
    exact ⟨hden, hnone.trans hden⟩
  · intro hb
    have hden : e.beta_ ^ 2 * e.precision_ + e.recall_ = 0 ↔ e.recall_ = 0 := by
      rw [hb]
      constructor
      · intro h
        linarith
      · intro h
        rw [h]
        ring
    exact ⟨hden, hnone.trans hden⟩
  · simp [set_beta]
  · simp [set_beta]

/-- C22 (amended) at beta = 1 with the cached values P = R = 0 of a freshly constructed evaluator, and
at beta = 0 in the state reached from real = predicted = {[0,4]} by `update_precision` alone
(cached recall still 0): `compute_fscore` has no finite value in either state. -/
theorem C22_fscore_division_by_zero_witness :
    (ctor_sets [(0, 2)] [(10, 12)]).compute_fscore = none ∧
    (ctor_config [(0, 4)] [(0, 4)] 0 0 e_one e_flat e_flat).update_precision.compute_fscore
      = none :=
  ⟨((C22_fscore_division_by_zero (ctor_sets [(0, 2)] [(10, 12)])).1
      (by norm_num [ctor_sets]) (le_refl 0) (le_refl 0)).2.mpr ⟨rfl, rfl⟩,
   ((C22_fscore_division_by_zero
      (ctor_config [(0, 4)] [(0, 4)] 0 0 e_one e_flat e_flat).update_precision).2.1
        rfl).2.mpr rfl⟩

/-! ## The middle bias -/

/-- The middle weight of `delta_select` at a position of the range is `min(t, L - t + 1)`. -/
theorem delta_select_middle_eq_min (e : evaluator) (t L : Int) (m : e_metric)
    (h1 : 1 ≤ t) (h2 : t ≤ L) :
    e.delta_select e_middle t L m = ((min t (L - t + 1) : Int) : ℚ) := by
  have hdiv : Int.tdiv L 2 = L / 2 := Int.tdiv_eq_ediv (by omega) (by omega)
  unfold delta_select
  simp only [hdiv]
  by_cases h : t ≤ L / 2
  · have hmin : min t (L - t + 1) = t := min_eq_left (by omega)
    simp [h, hmin]
  · have hmin : min t (L - t + 1) = L - t + 1 := min_eq_right (by omega)
    simp [h, hmin]

/-- C23: for every range length L >= 1 and every position t with 1 <= t <= L, the middle
weight computed with the integer division L/2 equals min(t, L - t + 1); hence
middle(t, L) = middle(L + 1 - t, L), the weight is non-decreasing for positions up to the
midpoint (s <= t with 2t <= L + 1) and non-increasing after it (t <= u with L + 1 <= 2t). -/
theorem C23_middle_bias (e : evaluator) (t L : Int) (m : e_metric)
    (h1 : 1 ≤ t) (h2 : t ≤ L) :
    e.delta_select e_middle t L m = ((min t (L - t + 1) : Int) : ℚ) ∧
    e.delta_select e_middle t L m = e.delta_select e_middle (L + 1 - t) L m ∧
    (∀ s : Int, 1 ≤ s → s ≤ t → 2 * t ≤ L + 1 →
      e.delta_select e_middle s L m ≤ e.delta_select e_middle t L m) ∧
    (∀ u : Int, t ≤ u → u ≤ L → L + 1 ≤ 2 * t →
      e.delta_select e_middle u L m ≤ e.delta_select e_middle t L m) := by
  refine ⟨delta_select_middle_eq_min e t L m h1 h2, ?_, ?_, ?_⟩
  · rw [delta_select_middle_eq_min e t L m h1 h2,
      delta_select_middle_eq_min e (L + 1 - t) L m (by omega) (by omega)]
    have : min t (L - t + 1) = min (L + 1 - t) (L - (L + 1 - t) + 1) := by
      rw [min_comm]
      congr 1 <;> ring
    rw [this]
  · intro s hs1 hs2 hmid
    rw [delta_select_middle_eq_min e t L m h1 h2,
      delta_select_middle_eq_min e s L m hs1 (by omega)]
    have : min s (L - s + 1) ≤ min t (L - t + 1) := by
      rw [min_eq_left (by omega : s ≤ L - s + 1), min_eq_left (by omega : t ≤ L - t + 1)]
      exact hs2
    exact_mod_cast this
  · intro u hu1 hu2 hmid
    rw [delta_select_middle_eq_min e t L m h1 h2,
      delta_select_middle_eq_min e u L m (by omega) hu2]
    have : min u (L - u + 1) ≤ min t (L - t + 1) := by
      rw [min_eq_right (by omega : L - u + 1 ≤ u), min_eq_right (by omega : L - t + 1 ≤ t)]
      omega
    exact_mod_cast this

/-- C23 at L = 7, t = 3: the weight is min(3, 5) = 3, equal to the weight at the mirrored
position 5, at least the weight at position 2, and the weight at position 4 (the midpoint)
is at least the weight at position 6. -/
theorem C23_middle_bias_witness :
    ctor_default.delta_select e_middle 3 7 e_recall = ((min 3 (7 - 3 + 1) : Int) : ℚ) ∧
    ctor_default.delta_select e_middle 3 7 e_recall =
      ctor_default.delta_select e_middle (7 + 1 - 3) 7 e_recall ∧
    ctor_default.delta_select e_middle 2 7 e_recall ≤
      ctor_default.delta_select e_middle 3 7 e_recall ∧
    ctor_default.delta_select e_middle 6 7 e_recall ≤
      ctor_default.delta_select e_middle 4 7 e_recall :=
  ⟨(C23_middle_bias ctor_default 3 7 e_recall (by decide) (by decide)).1,
   (C23_middle_bias ctor_default 3 7 e_recall (by decide) (by decide)).2.1,
   (C23_middle_bias ctor_default 3 7 e_recall (by decide) (by decide)).2.2.1 2
      (by decide) (by decide) (by decide),
   (C23_middle_bias ctor_default 4 7 e_recall (by decide) (by decide)).2.2.2 6
      (by decide) (by decide) (by decide)⟩

/-! ## Bounds of the metrics: disjoint sets, reciprocal gamma, F-score -/

/-- C24 (amended): with arithmetic taken as exact, if every predicted range is well-formed
and the predicted ranges are pairwise non-overlapping, then `compute_recall` is in [0,1] for
every real set, every alpha_r in [0,1] and every gamma and delta selector; symmetrically, if
the real ranges are well-formed and pairwise non-overlapping, then `compute_precision` is in
[0,1] for every predicted set, in every state with alpha_p = 0 (which every constructor sets
and no call changes). -/
theorem C24_bound_of_disjoint (e : evaluator) :
    (0 ≤ e.alpha_r_ → e.alpha_r_ ≤ 1 →
      (∀ p ∈ e.predicted_anomalies_, well_formed p) →
      pairwise_disjoint e.predicted_anomalies_ →
      0 ≤ e.compute_recall ∧ e.compute_recall ≤ 1) ∧
    (e.alpha_p_ = 0 →
      (∀ r ∈ e.real_anomalies_, well_formed r) →
      pairwise_disjoint e.real_anomalies_ →
      0 ≤ e.compute_precision ∧ e.compute_precision ≤ 1) := by
  constructor
  · intro h0 h1 _ hd
    exact ⟨compute_recall_nonneg e h0 h1, compute_recall_le_one_of_disjoint e h0 h1 hd⟩
  · intro hp _ hd
    have h0 : 0 ≤ e.alpha_p_ := by rw [hp]
    have h1 : e.alpha_p_ ≤ 1 := by rw [hp]; exact zero_le_one
    exact ⟨compute_precision_nonneg e h0 h1, compute_precision_le_one_of_disjoint e h0 h1 hd⟩

/-- C24 (amended) at real = {[0,9],[5,14],[5,14]} (overlapping, repeated) against the disjoint
predicted set {[2,6],[8,20]} for recall, and at predicted = {[0,9],[5,14],[5,14]} against the
disjoint real set {[2,6],[8,20]} for precision; gamma = one, alpha_r = 1/2. -/
theorem C24_bound_of_disjoint_witness :
    (0 ≤ (ctor_config [(0, 9), (5, 14), (5, 14)] [(2, 6), (8, 20)] 1 (1 / 2)
        e_one e_front e_back).compute_recall ∧
      (ctor_config [(0, 9), (5, 14), (5, 14)] [(2, 6), (8, 20)] 1 (1 / 2)
        e_one e_front e_back).compute_recall ≤ 1) ∧
    (0 ≤ (ctor_config [(2, 6), (8, 20)] [(0, 9), (5, 14), (5, 14)] 1 (1 / 2)
        e_one e_front e_back).compute_precision ∧
      (ctor_config [(2, 6), (8, 20)] [(0, 9), (5, 14), (5, 14)] 1 (1 / 2)
        e_one e_front e_back).compute_precision ≤ 1) :=
  ⟨(C24_bound_of_disjoint (ctor_config [(0, 9), (5, 14), (5, 14)] [(2, 6), (8, 20)] 1 (1 / 2)
      e_one e_front e_back)).1 (by norm_num [ctor_config]) (by norm_num [ctor_config])
      (by decide) (by decide),
   (C24_bound_of_disjoint (ctor_config [(2, 6), (8, 20)] [(0, 9), (5, 14), (5, 14)] 1 (1 / 2)
      e_one e_front e_back)).2 rfl (by decide) (by decide)⟩

/-- C25: with gamma = reciprocal, for all range sets whatsoever (ranges may overlap within a
set, repeat, or have start > end), every alpha_r in [0,1] and every delta selector, in every
state with alpha_p = 0, `compute_precision` and `compute_recall` are in [0,1]; and for every
range, every other set and every metric side, the omega reward summed by the inner loop
never exceeds the overlap count of that loop. -/
theorem C25_bound_of_reciprocal (e : evaluator)
    (hgp : e.gamma_p_ = e_reciprocal) (hgr : e.gamma_r_ = e_reciprocal)
    (hp : e.alpha_p_ = 0) (h0 : 0 ≤ e.alpha_r_) (h1 : e.alpha_r_ ≤ 1) :
    (0 ≤ e.compute_precision ∧ e.compute_precision ≤ 1) ∧
    (0 ≤ e.compute_recall ∧ e.compute_recall ≤ 1) ∧
    (∀ (own : time_range) (others : time_intervals) (m : e_metric),
      (others.foldl (e.inner_step own m) (0, 0)).1 ≤
        (((others.foldl (e.inner_step own m) (0, 0)).2 : Int) : ℚ)) := by
  have hp0 : 0 ≤ e.alpha_p_ := by rw [hp]
  have hp1 : e.alpha_p_ ≤ 1 := by rw [hp]; exact zero_le_one
  refine ⟨⟨compute_precision_nonneg e hp0 hp1,
      compute_precision_le_one_of_reciprocal e hp0 hp1 hgp⟩,
    ⟨compute_recall_nonneg e h0 h1, compute_recall_le_one_of_reciprocal e h0 h1 hgr⟩, ?_⟩
  intro own others m
  rw [inner_fold_eq]
  simp only [zero_add]
  exact_mod_cast omega_sum_le_length e m own (overlapping own others)

/-- C25 at real = {[0,9],[9,0]}, predicted = {[0,9],[5,9],[5,9],[7,3]} (overlapping, repeated
and reversed ranges), gamma = reciprocal, alpha_r = 1/2. -/
theorem C25_bound_of_reciprocal_witness :
    (0 ≤ (ctor_config [(0, 9), (9, 0)] [(0, 9), (5, 9), (5, 9), (7, 3)] 1 (1 / 2)
        e_reciprocal e_middle e_back).compute_precision ∧
      (ctor_config [(0, 9), (9, 0)] [(0, 9), (5, 9), (5, 9), (7, 3)] 1 (1 / 2)
        e_reciprocal e_middle e_back).compute_precision ≤ 1) ∧
    (0 ≤ (ctor_config [(0, 9), (9, 0)] [(0, 9), (5, 9), (5, 9), (7, 3)] 1 (1 / 2)
        e_reciprocal e_middle e_back).compute_recall ∧
      (ctor_config [(0, 9), (9, 0)] [(0, 9), (5, 9), (5, 9), (7, 3)] 1 (1 / 2)
        e_reciprocal e_middle e_back).compute_recall ≤ 1) :=
  ⟨(C25_bound_of_reciprocal (ctor_config [(0, 9), (9, 0)] [(0, 9), (5, 9), (5, 9), (7, 3)] 1
      (1 / 2) e_reciprocal e_middle e_back) rfl rfl rfl (by norm_num [ctor_config])
      (by norm_num [ctor_config])).1,
   (C25_bound_of_reciprocal (ctor_config [(0, 9), (9, 0)] [(0, 9), (5, 9), (5, 9), (7, 3)] 1
      (1 / 2) e_reciprocal e_middle e_back) rfl rfl rfl (by norm_num [ctor_config])
      (by norm_num [ctor_config])).2.1⟩

/-- C26 (amended): with arithmetic taken as exact, for every beta and all cached precision
P > 0 and recall R > 0, `compute_fscore` returns a value F with min(P, R) <= F <= max(P, R);
consequently F is in (0,1] whenever P and R are in (0,1], and F = P when P = R. -/
theorem C26_fscore_between (e : evaluator) (hP : 0 < e.precision_) (hR : 0 < e.recall_) :
    ∃ F : ℚ, e.compute_fscore = some F ∧
      min e.precision_ e.recall_ ≤ F ∧ F ≤ max e.precision_ e.recall_ ∧
      (e.precision_ ≤ 1 → e.recall_ ≤ 1 → 0 < F ∧ F ≤ 1) ∧
      (e.precision_ = e.recall_ → F = e.precision_) := by
  have hb : 0 ≤ e.beta_ ^ 2 := sq_nonneg _
  have hden : 0 < e.beta_ ^ 2 * e.precision_ + e.recall_ := by
    have := mul_nonneg hb (le_of_lt hP)
    linarith
  have hlow : min e.precision_ e.recall_ ≤
      (1 + e.beta_ ^ 2) * (e.precision_ * e.recall_) /
        (e.beta_ ^ 2 * e.precision_ + e.recall_) := by
    rw [le_div_iff₀ hden]
    rcases le_total e.precision_ e.recall_ with h | h
    · rw [min_eq_left h]
      nlinarith [mul_nonneg (mul_nonneg hb (le_of_lt hP)) (sub_nonneg.mpr h)]
    · rw [min_eq_right h]
      nlinarith [mul_nonneg (le_of_lt hR) (sub_nonneg.mpr h)]
  have hhigh : (1 + e.beta_ ^ 2) * (e.precision_ * e.recall_) /
        (e.beta_ ^ 2 * e.precision_ + e.recall_) ≤ max e.precision_ e.recall_ := by
    rw [div_le_iff₀ hden]
    rcases le_total e.precision_ e.recall_ with h | h
    · rw [max_eq_right h]
      nlinarith [mul_nonneg (le_of_lt hR) (sub_nonneg.mpr h)]
    · rw [max_eq_left h]
      nlinarith [mul_nonneg (mul_nonneg hb (le_of_lt hP)) (sub_nonneg.mpr h)]
  refine ⟨(1 + e.beta_ ^ 2) * (e.precision_ * e.recall_) /
      (e.beta_ ^ 2 * e.precision_ + e.recall_), ?_, hlow, hhigh, ?_, ?_⟩
  · unfold compute_fscore
    simp only
    rw [if_neg (ne_of_gt hden)]
  · intro hP1 hR1
    constructor
    · exact lt_of_lt_of_le (lt_min hP hR) hlow
    · exact le_trans hhigh (max_le hP1 hR1)
  · intro heq
    apply le_antisymm
    · have := hhigh
      rw [← heq, max_self] at this
      rw [← heq]
      exact this
    · have := hlow
      rw [← heq, min_self] at this
      rw [← heq]
      exact this

/-- C26 (amended) at the state reached from real = {[0,9]}, predicted = {[5,9]} with beta = 2 by
`update_precision` and `update_recall` (cached precision 1, cached recall 1/2). -/
theorem C26_fscore_between_witness :
    ∃ F : ℚ, ((ctor_config [(0, 9)] [(5, 9)] 2 0 e_one e_flat
        e_flat).update_precision.update_recall).compute_fscore = some F ∧
      1 / 2 ≤ F ∧ F ≤ 1 := by
  have hP : ((ctor_config [(0, 9)] [(5, 9)] 2 0 e_one e_flat
      e_flat).update_precision.update_recall).precision_ = 1 := by
    simp [update_recall, update_precision, compute_precision, ctor_config, inner_step,
      compute_omega_reward, omega_function, omega_loop, omega_step, delta_function,
      delta_select, gamma_function, gamma_select, List.range, List.range.loop]
    norm_num
  have hR : ((ctor_config [(0, 9)] [(5, 9)] 2 0 e_one e_flat
      e_flat).update_precision.update_recall).recall_ = 1 / 2 := by
    simp [update_recall, update_precision, compute_recall, ctor_config, inner_step,
      compute_omega_reward, omega_function, omega_loop, omega_step, delta_function,
      delta_select, gamma_function, gamma_select, List.range, List.range.loop]
    norm_num
  obtain ⟨F, hF, hlo, hhi, _, _⟩ := C26_fscore_between
    ((ctor_config [(0, 9)] [(5, 9)] 2 0 e_one e_flat e_flat).update_precision.update_recall)
    (by rw [hP]; norm_num) (by rw [hR]; norm_num)
  rw [hP, hR] at hlo hhi
  refine ⟨F, hF, ?_, ?_⟩
  · have : min (1 : ℚ) (1 / 2) = 1 / 2 := by norm_num
    rw [this] at hlo
    exact hlo
  · have : max (1 : ℚ) (1 / 2) = 1 := by norm_num
    rw [this] at hhi
    exact hhi

/-! ## The code on machine numbers: rounding, overflow and underflow -/

/-- An integer that fits the 32-bit `int` is the value the `int` holds. -/
theorem wrap_int_eq_self (x : Int) (h1 : -2147483648 ≤ x) (h2 : x ≤ 2147483647) :
    machine.wrap_int x = x := by
  unfold machine.wrap_int
  omega

/-- C22 (as stated, refuted), on machine numbers.  With beta = 2^-600 > 0 and the cached
values P = 1, R = 0 (the state reached from real = predicted = {[0,4]} by `update_precision`
alone), `pow(beta, 2)` underflows to 0, the denominator beta^2 * P + R is 0 although P is not
0, and `compute_fscore` returns NaN. -/
theorem C22_denominator_zero_by_underflow :
    dbl.lt (dbl.zero false) (dbl.fin false 4503599627370496 (-652)) = true ∧
    (((machine.evaluator.ctor_config [(0, 4)] [(0, 4)] (dbl.fin false 4503599627370496 (-652))
        (dbl.zero false) e_one e_flat e_flat).update_precision).map
      (fun s => (s.beta_, s.precision_, s.recall_,
        dbl.add (dbl.mul (dbl.mul s.beta_ s.beta_) s.precision_) s.recall_,
        s.compute_fscore))) =
      some (dbl.fin false 4503599627370496 (-652), dbl.one, dbl.zero false, dbl.zero false,
        dbl.nan) ∧
    dbl.one ≠ dbl.zero false := by
  decide

/-- C24 (as stated, refuted), on machine numbers.  With real = {[0,9]} and the well-formed,
pairwise non-overlapping predicted set {[0,1],[2,5],[6,8],[9,9]}, alpha_r = 0, gamma = one
and the flat bias, the omega rewards 0.2, 0.4, 0.3, 0.1 are added as rounded doubles and
`compute_recall` returns 1 + 2^-52, which is greater than 1. -/
theorem C24_recall_exceeds_one_in_doubles :
    (∀ p ∈ [((0, 1) : time_range), (2, 5), (6, 8), (9, 9)], well_formed p) ∧
    pairwise_disjoint [(0, 1), (2, 5), (6, 8), (9, 9)] ∧
    (machine.evaluator.ctor_config [(0, 9)] [(0, 1), (2, 5), (6, 8), (9, 9)] dbl.one
      (dbl.zero false) e_one e_flat e_flat).compute_recall =
      some (dbl.fin false 4503599627370497 (-52)) ∧
    dbl.one = dbl.fin false 4503599627370496 (-52) ∧
    dbl.lt dbl.one (dbl.fin false 4503599627370497 (-52)) = true := by
  decide

/-- C26 (as stated, refuted), on machine numbers.  With beta = 1 and the cached values
P = R = 0.1 (the state reached from real = {[9,18]}, predicted = {[0,9]} by
`update_precision` and `update_recall`), `compute_fscore` returns the double next above 0.1:
it is greater than max(P, R) and differs from P although P = R. -/
theorem C26_fscore_exceeds_max_in_doubles :
    ((((machine.evaluator.ctor_config [(9, 18)] [(0, 9)] dbl.one (dbl.zero false)
        e_one e_flat e_flat).update_precision.bind machine.evaluator.update_recall).map
      (fun s => (s.beta_, s.precision_, s.recall_, s.compute_fscore))) =
        some (dbl.one, dbl.fin false 7205759403792794 (-56),
          dbl.fin false 7205759403792794 (-56), dbl.fin false 7205759403792795 (-56))) ∧
    dbl.div dbl.one (dbl.ofInt 10) = dbl.fin false 7205759403792794 (-56) ∧
    dbl.lt (dbl.zero false) (dbl.fin false 7205759403792794 (-56)) = true ∧
    dbl.lt (dbl.fin false 7205759403792794 (-56)) (dbl.fin false 7205759403792795 (-56))
      = true ∧
    dbl.fin false 7205759403792795 (-56) ≠ dbl.fin false 7205759403792794 (-56) := by
  decide

/-- On machine numbers, at inputs inside the bounds of the amended C5 and C7, the code
returns what the exact statements say: a perfect match gives precision, recall and F-score
(1, 1, 1), here for real = predicted = {[0,4]} with beta = 1 and for
real = predicted = {[0,4],[10,12]} with beta = 3, alpha_r = 0.1, gamma = reciprocal,
delta_p = middle, delta_r = back; and under the flat bias `compute_omega_reward` of
r = [0,9] against p = [5,9] is the double 0.5 = 5/10. -/
theorem machine_numbers_agree_in_range :
    ((((machine.evaluator.ctor_config [(0, 4)] [(0, 4)] dbl.one (dbl.zero false)
        e_one e_flat e_flat).update_precision.bind machine.evaluator.update_recall).map
      (fun s => (s.precision_, s.recall_, s.update_fscore.fscore_))) =
        some (dbl.one, dbl.one, dbl.one)) ∧
    ((((machine.evaluator.ctor_config [(0, 4), (10, 12)] [(0, 4), (10, 12)] (dbl.ofInt 3)
        (dbl.div dbl.one (dbl.ofInt 10)) e_reciprocal e_middle
        e_back).update_precision.bind machine.evaluator.update_recall).map
      (fun s => (s.precision_, s.recall_, s.update_fscore.fscore_))) =
        some (dbl.one, dbl.one, dbl.one)) ∧
    (machine.evaluator.ctor_config [(0, 9)] [(5, 9)] dbl.one (dbl.zero false)
        e_one e_flat e_flat).compute_omega_reward (0, 9) (5, 9) 0 e_recall =
      some (dbl.div (dbl.ofInt 5) (dbl.ofInt 10), 1) ∧
    dbl.div (dbl.ofInt 5) (dbl.ofInt 10) = dbl.fin false 4503599627370496 (-53) := by
  decide

end evaluator

end anomaly
